import Mathlib

/-!
Verification of the palantir/checks repository: a shallow embedding of the
golicense header-rewriting library, the importalias file-processing loop, and
the gocd dependency grapher (source file classifier, vendor resolver, package
graph and import report), together with theorems settling the specification
claims about them.
-/

/-! Section 1: generic string and list helpers shared by the models. -/

/-- Byte-wise (code-point-wise) lexicographic comparison of character lists,
mirroring the ordering used by sort.Strings in Go. -/
def strLeB : List Char → List Char → Bool
  | [], _ => true
  | _ :: _, [] => false
  | a :: as, b :: bs =>
    if a.toNat < b.toNat then true
    else if b.toNat < a.toNat then false
    else strLeB as bs

/-- Sort a list of strings lexicographically, modelling sort.Strings. -/
def sortStrs (l : List String) : List String :=
  List.insertionSort (fun a b => strLeB a.data b.data) l

/-- The newline character as a one-element character list. -/
def nl : List Char := ("\n").data

/-! Section 2: the golicense library (golicense/golicense.go).

The filesystem is modelled as an association list from file paths to file
contents (character lists); reads return the first matching entry and writes
replace the first matching entry, leaving a missing path untouched (the code
only ever writes to a path it has just successfully read). -/

/-- A filesystem snapshot: file path to content. -/
def FileSys : Type := List (String × List Char)

instance : DecidableEq FileSys := by
  unfold FileSys
  infer_instance

/-- Read a file: first entry whose path matches. -/
def fsRead : FileSys → String → Option (List Char)
  | [], _ => none
  | e :: rest, p => if e.1 = p then some e.2 else fsRead rest p

/-- Write a file: replace the content of the first entry whose path matches. -/
def fsWrite : FileSys → String → List Char → FileSys
  | [], _, _ => []
  | e :: rest, p, c => if e.1 = p then (p, c) :: rest else e :: fsWrite rest p c

/-- CustomLicenseParam from golicense: a named custom header bound to a set of
include paths. -/
structure CustomLicenseParam where
  name : String
  header : List Char
  includePaths : List String

/-- LicenseParams from golicense: default header, custom header entries and a
global exclude matcher (modelled as a predicate on paths). -/
structure LicenseParams where
  header : List Char
  customHeaders : List CustomLicenseParam
  exclude : String → Bool

/-- The validate method of LicenseParams: custom header entries must have
non-blank pairwise-distinct names, and no include path may be claimed by more
than one custom entry (or twice by the same entry). -/
def validateOk (p : LicenseParams) : Bool :=
  p.customHeaders.all (fun v => v.name ≠ ("")) &&
  (p.customHeaders.map (fun v => v.name)).Nodup &&
  (p.customHeaders.flatMap (fun v => v.includePaths)).Nodup

/-- The goFileMatcher (matcher.Name of a go-file pattern): the file name ends
in the go source extension. -/
def isGoFileName (f : String) : Bool := (".go").data.isSuffixOf f.data

/-- matcher.PathLiteral(p).Match(f): the path is exactly p or lies below the
directory p. -/
def pathLiteralMatch (p f : String) : Bool :=
  p = f || (p ++ ("/")).data.isPrefixOf f.data

/-- The longest-match custom-matcher assignment loop of processFiles: iterate
over all custom headers and their include paths, keeping the name of the last
matcher seen whose matching path is at least as long as the best so far.
Returns the winning matcher name (empty when no custom matcher matches) and
the length of its matching path. -/
def bestMatcher (chs : List CustomLicenseParam) (f : String) : String × Nat :=
  chs.foldl
    (fun acc v =>
      v.includePaths.foldl
        (fun acc2 pt =>
          if pathLiteralMatch pt f && decide (pt.length ≥ acc2.2) then (v.name, pt.length)
          else acc2)
        acc)
    (("") , 0)

/-- The files assigned to one custom header entry: the go files whose
longest-match winner is that entry's name. -/
def groupOf (chs : List CustomLicenseParam) (goFiles : List String)
    (v : CustomLicenseParam) : List String :=
  goFiles.filter (fun f => (bestMatcher chs f).1 = v.name)

/-- Common shape of the two golicense visitors: decide from the content
whether the file changes, and if so (and modify is set) write the updated
content back. -/
def mkVisitor (chg : List Char → Bool) (upd : List Char → List Char) (modify : Bool)
    (fs : FileSys) (p : String) (content : List Char) : Bool × FileSys :=
  if chg content then (true, if modify then fsWrite fs p (upd content) else fs)
  else (false, fs)

/-- visitFiles from golicense: stat and read each file in order, run the
visitor (threading the filesystem through its writes), and collect the files
the visitor reported as changed. A failed read aborts with an error (none). -/
def visitFiles (visitor : FileSys → String → List Char → Bool × FileSys) :
    List String → FileSys → Option (List String × FileSys)
  | [], fs => some ([], fs)
  | f :: rest, fs =>
    match fsRead fs f with
    | none => none
    | some content =>
      match visitFiles visitor rest (visitor fs f content).2 with
      | none => none
      | some (mods, fsFin) =>
        some ((if (visitor fs f content).1 then f :: mods else mods), fsFin)

/-- The applyLicenseToFiles visitor: a file changes when its content does not
already start with header-plus-newline; the update prepends exactly
header-plus-newline. -/
def applyChg (header : List Char) (content : List Char) : Bool :=
  ! (header ++ nl).isPrefixOf content

/-- Content update performed by applyLicenseToFiles. -/
def applyUpd (header : List Char) (content : List Char) : List Char :=
  header ++ nl ++ content

/-- applyLicenseToFiles from golicense. -/
def applyLicenseToFiles (files : List String) (header : List Char) (modify : Bool)
    (fs : FileSys) : Option (List String × FileSys) :=
  visitFiles (mkVisitor (applyChg header) (applyUpd header) modify) files fs

/-- The removeLicenseFromFiles visitor: a file changes when its content starts
with header-plus-newline; the update trims exactly that prefix. -/
def removeChg (header : List Char) (content : List Char) : Bool :=
  (header ++ nl).isPrefixOf content

/-- Content update performed by removeLicenseFromFiles. -/
def removeUpd (header : List Char) (content : List Char) : List Char :=
  content.drop (header.length + 1)

/-- removeLicenseFromFiles from golicense. -/
def removeLicenseFromFiles (files : List String) (header : List Char) (modify : Bool)
    (fs : FileSys) : Option (List String × FileSys) :=
  visitFiles (mkVisitor (removeChg header) (removeUpd header) modify) files fs

/-- The loop of processFiles over the custom header entries: each entry
processes its assigned group of files with its own header, accumulating the
modified files and threading the filesystem. -/
def runCustomLoop (f : List String → List Char → Bool → FileSys → Option (List String × FileSys))
    (chs : List CustomLicenseParam) (goFiles : List String) (modify : Bool) :
    List CustomLicenseParam → FileSys → Option (List String × FileSys)
  | [], fs => some ([], fs)
  | v :: rest, fs =>
    match f (groupOf chs goFiles v) v.header modify fs with
    | none => none
    | some (mods, fs1) =>
      match runCustomLoop f chs goFiles modify rest fs1 with
      | none => none
      | some (mods2, fs2) => some (mods ++ mods2, fs2)

/-- processFiles from golicense: validate the parameters, keep the go files
not excluded, process each custom matcher group with its custom header, then
process the remaining go files with the default header, and return the sorted
list of (would-be) modified files. -/
def processFiles (files : List String) (params : LicenseParams) (modify : Bool)
    (f : List String → List Char → Bool → FileSys → Option (List String × FileSys))
    (fs : FileSys) : Option (List String × FileSys) :=
  if validateOk params then
    let goFiles := files.filter (fun x => isGoFileName x && ! params.exclude x)
    match runCustomLoop f params.customHeaders goFiles modify params.customHeaders fs with
    | none => none
    | some (mods1, fs1) =>
      let unprocessed := goFiles.filter (fun x => (bestMatcher params.customHeaders x).1 = (""))
      match f unprocessed params.header modify fs1 with
      | none => none
      | some (mods2, fs2) => some (sortStrs (mods1 ++ mods2), fs2)
  else none

/-- LicenseFiles from golicense. -/
def licenseFiles (files : List String) (params : LicenseParams) (modify : Bool)
    (fs : FileSys) : Option (List String × FileSys) :=
  processFiles files params modify applyLicenseToFiles fs

/-- UnlicenseFiles from golicense. -/
def unlicenseFiles (files : List String) (params : LicenseParams) (modify : Bool)
    (fs : FileSys) : Option (List String × FileSys) :=
  processFiles files params modify removeLicenseFromFiles fs

/-! Section 3: the importalias tool (main.go: doImportAlias / processFile).

Source files are abstract: each carries the alias map its parse would
produce, or no result when the file is not syntactically valid. -/

/-- A source file as seen by importalias: its base name and the outcome of
parsing it (the map from import path to explicit alias, when it parses). -/
structure AliasFile where
  fname : String
  parsed : Option (List (String × String))
deriving Repr, DecidableEq

/-- Result of a fallible computation, as Go (value, error) pairs. -/
inductive Res (α : Type) where
  | ok (val : α)
  | err (msg : String)
deriving Repr, DecidableEq

/-- processFile from importalias: returns the alias map of the parsed file,
or the parse error. -/
def processFile (filename : String) (parsed : Option (List (String × String))) :
    Res (List (String × String)) :=
  match parsed with
  | some m => Res.ok m
  | none => Res.err (("failed to parse file ") ++ filename)

/-- path.Join on two segments. -/
def pathJoin (a b : String) : String := a ++ ("/") ++ b

/-- Package import path to alias to importing files, as in doImportAlias. -/
def AliasMap : Type := List (String × List (String × List String))

instance : DecidableEq AliasMap := by
  unfold AliasMap
  infer_instance

/-- Append a file under one alias of the inner alias map. -/
def addAliasInner (m : List (String × List String)) (al file : String) :
    List (String × List String) :=
  match m with
  | [] => [(al, [file])]
  | e :: rest => if e.1 = al then (e.1, e.2 ++ [file]) :: rest else e :: addAliasInner rest al file

/-- Record one (package, alias, importing file) triple in the alias map. -/
def addAlias (m : AliasMap) (pkg al file : String) : AliasMap :=
  match m with
  | [] => [(pkg, [(al, [file])])]
  | e :: rest =>
    if e.1 = pkg then (e.1, addAliasInner e.2 al file) :: rest
    else e :: addAlias rest pkg al file

/-- The per-file recording step of doImportAlias: record every aliased import
of the file, skipping the blank and dot aliases. -/
def recordAliases (pkgPath fname : String) (fileImports : List (String × String))
    (acc : AliasMap) : AliasMap :=
  fileImports.foldl
    (fun a kv =>
      if kv.2 = ("_") || kv.2 = (".") then a
      else addAlias a kv.1 kv.2 (pathJoin pkgPath fname))
    acc

/-- The inner file loop of doImportAlias over one package directory: process
each go file, aborting with a wrapped error as soon as one fails to parse. -/
def procDirFiles (projectDir pkgPath : String) :
    List AliasFile → AliasMap → Res AliasMap
  | [], acc => Res.ok acc
  | f :: rest, acc =>
    if isGoFileName f.fname then
      match processFile (pathJoin (pathJoin projectDir pkgPath) f.fname) f.parsed with
      | Res.err e =>
        Res.err (("Failed to process file ") ++ pathJoin (pathJoin projectDir pkgPath) f.fname ++ (": ") ++ e)
      | Res.ok m => procDirFiles projectDir pkgPath rest (recordAliases pkgPath f.fname m acc)
    else procDirFiles projectDir pkgPath rest acc

/-- The outer package loop of doImportAlias: traverse every package directory
in order, threading the accumulated alias map, aborting on the first error. -/
def collectImportAliases (projectDir : String) :
    List (String × List AliasFile) → AliasMap → Res AliasMap
  | [], acc => Res.ok acc
  | d :: rest, acc =>
    match procDirFiles projectDir d.1 d.2 acc with
    | Res.err e => Res.err e
    | Res.ok acc2 => collectImportAliases projectDir rest acc2

/-- The first go file of the traversal that fails to parse, with its package
path, if any. -/
def firstFailing : List (String × List AliasFile) → Option (String × AliasFile)
  | [] => none
  | d :: rest =>
    match d.2.find? (fun f => isGoFileName f.fname && f.parsed.isNone) with
    | some f => some (d.1, f)
    | none => firstFailing rest

/-- The error message the traversal surfaces for a file that fails to parse:
the parse error of the file, wrapped by the processing loop. -/
def parseAbortMsg (projectDir pkgPath : String) (f : AliasFile) : String :=
  ("Failed to process file ") ++ pathJoin (pathJoin projectDir pkgPath) f.fname ++ (": ") ++
    (("failed to parse file ") ++ pathJoin (pathJoin projectDir pkgPath) f.fname)

/-! Section 4: the gocd dependency grapher.

The gocd package sources are absent from the tree (only its tests are
present), so the grapher is modelled from the specification, calibrated
against the expectations of the in-repository tests TestDirPkgInfo,
TestImportPkgInfo, TestPkgInfos, TestImportReport and TestNGoFiles.

Directories and import paths are lists of path segments relative to the
source root, so a directory path doubles as the import path of the package
living there, exactly as in the tests. -/

/-- A directory path / import path, as a list of segments. -/
abbrev DirPath := List String

/-- Modelled from the spec: a source file of the grapher's input — its name
(test classification follows the test-file naming convention on the name),
its declared package clause, whether its build constraint is satisfied under
the concrete build context (the classifier itself evaluates dependencies in
all-tags-true mode), and its declared raw import paths. -/
structure GoFile where
  fname : String
  pkg : String
  tagOk : Bool
  imports : List DirPath
deriving Repr, DecidableEq

/-- A directory of the snapshot with its go files. -/
structure SrcDir where
  path : DirPath
  files : List GoFile
deriving Repr, DecidableEq

/-- A filesystem snapshot for the grapher. -/
abbrev GoTree := List SrcDir

/-- Modelled from the spec: a directory exists when some source directory of
the snapshot lies at or below it. -/
def dirExists (t : GoTree) (d : DirPath) : Bool :=
  t.any (fun e => d.isPrefixOf e.path)

/-- The ancestor directories of a directory, nearest (the directory itself)
first, ending at the source root. -/
def ancestorsOf (d : DirPath) : List DirPath :=
  (List.range (d.length + 1)).reverse.map (fun n => d.take n)

/-- The vendored location of a raw import path relative to an ancestor. -/
def vendorCandidate (d : DirPath) (raw : DirPath) : DirPath :=
  d ++ ("vendor") :: raw

/-- Modelled from the spec: the Vendor Resolver — walk upward from the dir
of the importing package toward the source root; at each ancestor,
if a vendor subtree contains the raw import path, the first (nearest) match
wins; otherwise the raw path is returned unresolved. -/
def resolveImport (t : GoTree) (src : DirPath) (raw : DirPath) : DirPath :=
  match (ancestorsOf src).find? (fun d => dirExists t (vendorCandidate d raw)) with
  | some d => vendorCandidate d raw
  | none => raw

/-- Whether a file is a test file, by the test-file naming convention. -/
def isTestFname (n : String) : Bool := ("_test.go").data.isSuffixOf n.data

/-- Strip the external-test suffix from a declared package name. -/
def stripTestSfx (p : String) : String :=
  if ("_test").data.isSuffixOf p.data then String.mk (p.data.take (p.data.length - 5)) else p

/-- PkgMode from gocd. -/
inductive PkgMode where
  | Default
  | Test
deriving Repr, DecidableEq

/-- The Imports field of PkgInfo: resolved import path to the files of the
package that perform the import. -/
abbrev ImportsMap := List (DirPath × List DirPath)

/-- Files attributed to one resolved import path in an imports map. -/
def lookupImps : ImportsMap → DirPath → List DirPath
  | [], _ => []
  | e :: rest, k => if e.1 = k then e.2 else lookupImps rest k

/-- Attribute one importing file to a resolved import path. -/
def addImport (m : ImportsMap) (key : DirPath) (file : DirPath) : ImportsMap :=
  match m with
  | [] => [(key, [file])]
  | e :: rest => if e.1 = key then (e.1, e.2 ++ [file]) :: rest else e :: addImport rest key file

/-- Modelled from the spec: the Import Extractor and Vendor Resolver applied
to a set of classified files — every raw import of every file is resolved
relative to the directory and attributed to the importing file. -/
def collectImports (t : GoTree) (d : DirPath) (fs : List GoFile) : ImportsMap :=
  fs.foldl
    (fun m f => f.imports.foldl (fun m2 r => addImport m2 (resolveImport t d r) (d ++ [f.fname])) m)
    []

/-- The files of a directory of the snapshot, when the directory is listed. -/
def filesAt (t : GoTree) (d : DirPath) : Option (List GoFile) :=
  match t.find? (fun e => e.path = d) with
  | some e => some e.files
  | none => none

/-- Modelled from the spec: the declared package name reported for a
directory — the package clause of the first non-test file whose build
constraint is satisfied, falling back to the first file of the directory
(with any external-test suffix stripped). -/
def primaryName (fs : List GoFile) : String :=
  match fs.filter (fun f => ! isTestFname f.fname && f.tagOk) with
  | f :: _ => f.pkg
  | [] =>
    match fs with
    | f :: _ => stripTestSfx f.pkg
    | [] => ("")

/-- The identity of the synthetic test package of a directory: the
directory's import path with the test suffix appended to its last segment. -/
def testVariantPath (d : DirPath) : DirPath :=
  d.dropLast ++ [(d.getLast?.getD ("")) ++ ("_test")]

/-- Modelled from the spec: the Source File Classifier's eligible-file subset
for a package mode — Default selects the non-test files, Test selects the
test files (constraints are evaluated in all-tags-true mode, so no file is
dropped by a build constraint here). -/
def eligibleFiles (fs : List GoFile) : PkgMode → List GoFile
  | .Default => fs.filter (fun f => ! isTestFname f.fname)
  | .Test => fs.filter (fun f => isTestFname f.fname)

/-- PkgInfo from gocd. -/
structure PkgInfo where
  path : DirPath
  name : String
  nGoFiles : Nat
  imports : ImportsMap
deriving Repr, DecidableEq

/-- Modelled from the spec: DirPkgInfo — classify the files of the directory,
build the package of the requested mode (the Test mode package lives at the
suffixed synthetic path), with the file count of the directory and the
resolved, attributed imports of the eligible files; the second component is
the explicit empty indicator, set exactly when the directory has no eligible
file for the mode. -/
def dirPkgInfo (t : GoTree) (d : DirPath) (mode : PkgMode) : Option (PkgInfo × Bool) :=
  match filesAt t d with
  | none => none
  | some fs =>
    some ({ path := match mode with | .Default => d | .Test => testVariantPath d
            name := primaryName fs
            nGoFiles := fs.length
            imports := collectImports t d (eligibleFiles fs mode) },
          (eligibleFiles fs mode).isEmpty)

/-! Section 5: the package graph, transitive closure and file counting. -/

/-- A node of the built package graph: resolved path, direct go-file count,
and resolved direct imports. -/
structure GraphNode where
  path : DirPath
  nFiles : Nat
  adj : List DirPath
deriving Repr, DecidableEq

/-- The built package graph. -/
abbrev DepGraph := List GraphNode

/-- The node registered for a resolved path, if any. -/
def nodeOf (g : DepGraph) (p : DirPath) : Option GraphNode :=
  g.find? (fun e => e.path = p)

/-- Direct imports of a package of the graph (empty for unknown packages). -/
def adjOf (g : DepGraph) (p : DirPath) : List DirPath :=
  match nodeOf g p with
  | some e => e.adj
  | none => []

/-- Modelled from the spec: NGoFiles — the direct go-file count of a package
(zero for a package with no node, e.g. an unresolvable external). -/
def nGoFiles (g : DepGraph) (p : DirPath) : Nat :=
  match nodeOf g p with
  | some e => e.nFiles
  | none => 0

/-- Reachability along import edges: the transitive (and reflexive) closure
of the direct-import relation, starting at the queried package. -/
inductive Reaches (g : DepGraph) : DirPath → DirPath → Prop
  | refl (p : DirPath) : Reaches g p p
  | tail {p q r : DirPath} : Reaches g p q → r ∈ adjOf g q → Reaches g p r

/-- Iterate a function n times. -/
def iterN (f : α → α) : Nat → α → α
  | 0, x => x
  | n + 1, x => iterN f n (f x)

/-- One step of closure expansion: keep every package of the set and add its
direct imports, de-duplicated. -/
def expandOnce (g : DepGraph) (s : List DirPath) : List DirPath :=
  (s.flatMap (fun q => q :: adjOf g q)).dedup

/-- Every package the closure computation can ever mention: the start package
and every node path and edge target of the graph. -/
def graphUniv (g : DepGraph) (p : DirPath) : List DirPath :=
  p :: g.flatMap (fun e => e.path :: e.adj)

/-- A sufficient number of expansion steps for saturation. -/
def reachBound (g : DepGraph) (p : DirPath) : Nat :=
  ((graphUniv g p).dedup).length

/-- Modelled from the spec: the visited set of the transitive-closure
traversal (TransitiveImportsOf), keyed by resolved import path — computed by
saturating one-step expansion, then de-duplicated. -/
def reachList (g : DepGraph) (p : DirPath) : List DirPath :=
  (iterN (expandOnce g) (reachBound g p) [p]).dedup

/-- Modelled from the spec: NTotalGoFiles — the sum of direct file counts
over the de-duplicated transitive closure of the queried package. -/
def nTotalGoFiles (g : DepGraph) (p : DirPath) : Nat :=
  ((reachList g p).map (nGoFiles g)).sum

/-- Modelled from the spec: the graph built from a snapshot — one node per
directory, with the directory's file count and the resolved imports of its
non-test files as edges. -/
def graphOfTree (t : GoTree) : DepGraph :=
  t.map (fun e =>
    { path := e.path
      nFiles := e.files.length
      adj := ((eligibleFiles e.files PkgMode.Default).flatMap
                (fun f => f.imports.map (resolveImport t e.path))).dedup })

/-! Section 6: the import-classification report. -/

/-- The class of a project package for the report: core source, a binary
(main) package, or a test package. -/
inductive PkgClass where
  | core
  | main
  | testC
deriving Repr, DecidableEq

/-- A hidden (dot-prefixed) path segment. -/
def hiddenSeg (s : String) : Bool := (".").data.isPrefixOf s.data

/-- Whether a directory is visited by the project traversal: under the
project root and reached without entering a vendor or hidden directory. -/
def walkable (proj : DirPath) (p : DirPath) : Bool :=
  proj.isPrefixOf p && (p.drop proj.length).all (fun s => s ≠ ("vendor") && ! hiddenSeg s)

/-- The directories the project traversal visits. -/
def projectDirs (t : GoTree) (proj : DirPath) : List DirPath :=
  (t.filter (fun e => walkable proj e.path)).map (fun e => e.path)

/-- The class of a Default-mode project package: main when its declared name
is the binary package name, otherwise core. -/
def classOfInfo (i : PkgInfo) : PkgClass :=
  if i.name = ("main") then PkgClass.main else PkgClass.core

/-- Modelled from the spec: the project package set of the report — the
Default-mode and Test-mode package of every visited directory, skipping empty
results; Test-mode packages are classed as test packages. -/
def projectPkgs (t : GoTree) (proj : DirPath) : List (PkgClass × PkgInfo) :=
  (projectDirs t proj).flatMap (fun d =>
    (match dirPkgInfo t d PkgMode.Default with
     | some (i, false) => [(classOfInfo i, i)]
     | _ => []) ++
    (match dirPkgInfo t d PkgMode.Test with
     | some (i, false) => [(PkgClass.testC, i)]
     | _ => []))

/-- Whether a package's import map has an edge to a resolved path. -/
def importsEdgeTo (i : PkgInfo) (e : DirPath) : Bool :=
  i.imports.any (fun kv => kv.1 = e)

/-- Whether some project package of a class imports a path. -/
def importedByClass (pkgs : List (PkgClass × PkgInfo)) (c : PkgClass) (e : DirPath) : Bool :=
  pkgs.any (fun ci => ci.1 = c && importsEdgeTo ci.2 e)

/-- The de-duplicated set of external imported packages: every resolved
dependency of a project package that does not lie under the project root. -/
def externalImports (t : GoTree) (proj : DirPath) : List DirPath :=
  (((projectPkgs t proj).flatMap (fun ci => ci.2.imports.map (fun kv => kv.1))).filter
    (fun p => ! proj.isPrefixOf p)).dedup

/-- Modelled from the spec: the bucket of an external imported package, with
the core-beats-main-beats-test precedence. -/
def bucketOf (pkgs : List (PkgClass × PkgInfo)) (e : DirPath) : PkgClass :=
  if importedByClass pkgs PkgClass.core e then PkgClass.core
  else if importedByClass pkgs PkgClass.main e then PkgClass.main
  else PkgClass.testC

/-- ImportReportPkg from gocd: an external package with its file counts and
the project packages that import it. -/
structure ImportReportPkg where
  path : DirPath
  nGo : Nat
  nImportedGo : Nat
  importSrc : List DirPath
deriving Repr, DecidableEq

/-- ImportReport from gocd. -/
structure ImportReport where
  imports : List ImportReportPkg
  mainOnlyImports : List ImportReportPkg
  testOnlyImports : List ImportReportPkg
deriving Repr, DecidableEq

/-- The report entry of one external package. -/
def mkReportPkg (t : GoTree) (pkgs : List (PkgClass × PkgInfo)) (e : DirPath) :
    ImportReportPkg :=
  { path := e
    nGo := nGoFiles (graphOfTree t) e
    nImportedGo := nTotalGoFiles (graphOfTree t) e - nGoFiles (graphOfTree t) e
    importSrc := (pkgs.filter (fun ci => importsEdgeTo ci.2 e)).map (fun ci => ci.2.path) }

/-- Modelled from the spec: CreateImportReport — partition the externally
imported packages into the three buckets by the precedence rule. -/
def createImportReport (t : GoTree) (proj : DirPath) : ImportReport :=
  { imports :=
      ((externalImports t proj).filter
        (fun e => bucketOf (projectPkgs t proj) e = PkgClass.core)).map
        (mkReportPkg t (projectPkgs t proj))
    mainOnlyImports :=
      ((externalImports t proj).filter
        (fun e => bucketOf (projectPkgs t proj) e = PkgClass.main)).map
        (mkReportPkg t (projectPkgs t proj))
    testOnlyImports :=
      ((externalImports t proj).filter
        (fun e => bucketOf (projectPkgs t proj) e = PkgClass.testC)).map
        (mkReportPkg t (projectPkgs t proj)) }

/-! Section 7: concrete snapshots used by examples, witnesses and
counterexamples. -/

/-- A one-package directory with a single core file. -/
def treeCore : GoTree := [⟨[("p")], [⟨("bar.go"), ("bar"), true, []⟩]⟩]

/-- A directory whose only file is an external test file with one import. -/
def treeExtTest : GoTree :=
  [⟨[("p")], [⟨("bar_test.go"), ("bar_test"), true, [[("foo")]]⟩]⟩,
   ⟨[("foo")], [⟨("foo.go"), ("foo"), true, []⟩]⟩]

/-- A directory holding two non-test packages, the binary one excluded by a
build constraint (the fixture of TestDirPkgInfo, case: handles multiple
packages where a package is excluded by build constraint). -/
def treeTwoPkgs : GoTree :=
  [⟨[("p")], [⟨("main.go"), ("main"), false, []⟩, ⟨("foo.go"), ("foo"), true, []⟩]⟩]

/-- A project with a top-level vendored dependency (the fixture of
TestImportPkgInfo). -/
def treeVendored : GoTree :=
  [⟨[("p")], [⟨("bar.go"), ("bar"), true, []⟩]⟩,
   ⟨[("p"), ("vendor"), ("github.com"), ("foo")], [⟨("foo.go"), ("foo"), true, []⟩]⟩]

/-- A project with the same raw path vendored at two ancestor levels (the
multi-level vendoring fixtures of TestExtimport and TestNovendor). -/
def treeMultiVendor : GoTree :=
  [⟨[("p")], [⟨("foo.go"), ("main"), true, [[("p"), ("bar")]]⟩]⟩,
   ⟨[("p"), ("bar")], [⟨("bar.go"), ("bar"), true, [[("g"), ("baz")]]⟩]⟩,
   ⟨[("p"), ("bar"), ("vendor"), ("g"), ("baz")], [⟨("baz.go"), ("baz"), true, []⟩]⟩,
   ⟨[("p"), ("vendor"), ("g"), ("baz")], [⟨("baz.go"), ("baz"), true, []⟩]⟩]

/-- A diamond dependency graph: one root, two chains, one shared sink with
two files (the fixture of the imports-are-not-double-counted report test). -/
def diamondGraph : DepGraph :=
  [⟨[("m")], 1, [[("foo")]]⟩,
   ⟨[("foo")], 1, [[("bar")], [("baz")]]⟩,
   ⟨[("bar")], 1, [[("common")]]⟩,
   ⟨[("baz")], 1, [[("common")]]⟩,
   ⟨[("common")], 2, []⟩]

/-- A project whose external package is imported by a main package and a test
package (the fixture of TestImportReport, case: package imported by main and
test packages). -/
def treeReport : GoTree :=
  [⟨[("proj")], [⟨("foo_test.go"), ("foo"), true, [[("bar")]]⟩]⟩,
   ⟨[("proj"), ("main")], [⟨("main.go"), ("main"), true, [[("bar")]]⟩]⟩,
   ⟨[("bar")], [⟨("bar.go"), ("bar"), true, []⟩]⟩]

/-- The directory of treeTwoPkgs before the build-excluded file of the other
package is added. -/
def treeOnePkg : GoTree := [⟨[("p")], [⟨("foo.go"), ("foo"), true, []⟩]⟩]

/-- The two-package directory with the build-excluded file appended last. -/
def treeTwoPkgsB : GoTree :=
  [⟨[("p")], [⟨("foo.go"), ("foo"), true, []⟩, ⟨("main.go"), ("main"), false, []⟩]⟩]

/-- License parameters with only the default header. -/
def plainParams : LicenseParams := ⟨("// L").data, [], fun _ => false⟩

/-- A filesystem with one unlicensed go file. -/
def fsPlain : FileSys := [(("a.go"), ("package a").data)]

/-- The same filesystem after the license header is applied. -/
def fsLicensed : FileSys := [(("a.go"), ("// L\npackage a").data)]

/-- A traversal input for importalias: a first package whose files parse and
a second package with a file that fails to parse. -/
def aliasDirs : List (String × List AliasFile) :=
  [(("ok"), [⟨("good.go"), some [((("fmt")), ("f"))]⟩]),
   (("bad"), [⟨("skip.txt"), none⟩, ⟨("broken.go"), none⟩, ⟨("later.go"), some []⟩])]

/-! Section 8: validation of the models against the in-repository test
fixtures. -/

example : dirPkgInfo treeCore [("p")] PkgMode.Default =
    some (⟨[("p")], ("bar"), 1, []⟩, false) := by decide

example : dirPkgInfo treeCore [("p")] PkgMode.Test =
    some (⟨[("p_test")], ("bar"), 1, []⟩, true) := by decide

example : dirPkgInfo treeExtTest [("p")] PkgMode.Test =
    some (⟨[("p_test")], ("bar"), 1, [([("foo")], [[("p"), ("bar_test.go")]])]⟩, false) := by
  decide

example : dirPkgInfo treeExtTest [("p")] PkgMode.Default =
    some (⟨[("p")], ("bar"), 1, []⟩, true) := by decide

example : dirPkgInfo treeTwoPkgs [("p")] PkgMode.Default =
    some (⟨[("p")], ("foo"), 2, []⟩, false) := by decide

example : resolveImport treeVendored [("p")] [("github.com"), ("foo")] =
    [("p"), ("vendor"), ("github.com"), ("foo")] := by decide

example : resolveImport treeMultiVendor [("p"), ("bar")] [("g"), ("baz")] =
    [("p"), ("bar"), ("vendor"), ("g"), ("baz")] := by decide

example : nTotalGoFiles diamondGraph [("foo")] = 5 := by decide

example : nGoFiles diamondGraph [("foo")] = 1 := by decide

example : (createImportReport treeReport [("proj")]).imports.map (fun x => x.path) = [] := by
  decide

example : (createImportReport treeReport [("proj")]).mainOnlyImports.map (fun x => x.path) =
    [[("bar")]] := by decide

example : (createImportReport treeReport [("proj")]).testOnlyImports.map (fun x => x.path) =
    [] := by decide

example : licenseFiles [("a.go")] plainParams true fsPlain =
    some ([("a.go")], fsLicensed) := by decide

example : unlicenseFiles [("a.go")] plainParams true fsLicensed =
    some ([("a.go")], fsPlain) := by decide


/-! Section 9: error handling of the importalias traversal (claim C4). -/

lemma procDirFiles_ok (projectDir pkgPath : String) (fs : List AliasFile)
    (h : fs.find? (fun x => isGoFileName x.fname && x.parsed.isNone) = none) :
    ∀ acc, ∃ acc2, procDirFiles projectDir pkgPath fs acc = Res.ok acc2 := by
  induction fs with
  | nil => exact fun acc => ⟨acc, rfl⟩
  | cons g rest ih =>
    intro acc
    cases hpg : (isGoFileName g.fname && g.parsed.isNone) with
    | true =>
      simp only [List.find?_cons, hpg] at h
      exact Option.noConfusion h
    | false =>
      simp only [List.find?_cons, hpg] at h
      cases hgo : isGoFileName g.fname with
      | false =>
        simpa only [procDirFiles, hgo, Bool.false_eq_true, if_false] using ih h acc
      | true =>
        cases hgp : g.parsed with
        | none => rw [hgo, hgp] at hpg; simp at hpg
        | some m =>
          simp only [procDirFiles, hgo, hgp, processFile, if_true]
          exact ih h (recordAliases pkgPath g.fname m acc)

lemma procDirFiles_abort (projectDir pkgPath : String) (fs : List AliasFile) (f : AliasFile)
    (h : fs.find? (fun x => isGoFileName x.fname && x.parsed.isNone) = some f) :
    ∀ acc, procDirFiles projectDir pkgPath fs acc =
      Res.err (parseAbortMsg projectDir pkgPath f) := by
  induction fs with
  | nil => simp [List.find?] at h
  | cons g rest ih =>
    intro acc
    cases hpg : (isGoFileName g.fname && g.parsed.isNone) with
    | true =>
      simp only [List.find?_cons, hpg, Option.some.injEq] at h
      subst h
      have hgo : isGoFileName g.fname = true := by
        cases hq : isGoFileName g.fname
        · rw [hq] at hpg; simp at hpg
        · rfl
      have hn : g.parsed = none := by
        rw [hgo] at hpg
        simp only [Bool.true_and] at hpg
        exact Option.isNone_iff_eq_none.mp hpg
      simp [procDirFiles, hgo, hn, processFile, parseAbortMsg]
    | false =>
      simp only [List.find?_cons, hpg] at h
      cases hgo : isGoFileName g.fname with
      | false =>
        simpa only [procDirFiles, hgo, Bool.false_eq_true, if_false] using ih h acc
      | true =>
        cases hgp : g.parsed with
        | none => rw [hgo, hgp] at hpg; simp at hpg
        | some m =>
          simp only [procDirFiles, hgo, hgp, processFile, if_true]
          exact ih h (recordAliases pkgPath g.fname m acc)

/-- C4: if any source file of the traversed tree fails to parse, the whole
alias collection aborts and returns the wrapped parse error of the
first such file, with no partial result. -/
theorem collectImportAliases_abortsOnParseError (projectDir : String)
    (dirs : List (String × List AliasFile)) (acc : AliasMap)
    (pp : String) (f : AliasFile)
    (h : firstFailing dirs = some (pp, f)) :
    collectImportAliases projectDir dirs acc = Res.err (parseAbortMsg projectDir pp f) := by
  induction dirs generalizing acc with
  | nil => simp [firstFailing] at h
  | cons d rest ih =>
    cases hf : d.2.find? (fun x => isGoFileName x.fname && x.parsed.isNone) with
    | some g =>
      rw [firstFailing, hf] at h
      simp only [Option.some.injEq, Prod.mk.injEq] at h
      obtain ⟨h1, h2⟩ := h
      subst h1; subst h2
      rw [collectImportAliases, procDirFiles_abort projectDir d.1 d.2 g hf acc]
    | none =>
      rw [firstFailing, hf] at h
      obtain ⟨acc2, hok⟩ := procDirFiles_ok projectDir d.1 d.2 hf acc
      rw [collectImportAliases, hok]
      exact ih acc2 h

/-- Witness for C4: the traversal with a concrete unparseable file aborts
with exactly that file's wrapped parse error. -/
theorem collectImportAliases_abortsOnParseError_witness :
    firstFailing aliasDirs = some (("bad"), ⟨("broken.go"), none⟩) ∧
    collectImportAliases ("proj") aliasDirs [] =
      Res.err (parseAbortMsg ("proj") ("bad") ⟨("broken.go"), none⟩) :=
  ⟨by decide,
   collectImportAliases_abortsOnParseError ("proj") aliasDirs [] ("bad")
     ⟨("broken.go"), none⟩ (by decide)⟩

/-! Section 10: the empty indicator of DirPkgInfo (claim C5). -/

lemma collectImports_nil (t : GoTree) (d : DirPath) (fs : List GoFile)
    (h : ∀ f ∈ fs, f.imports = []) : collectImports t d fs = [] := by
  have aux : ∀ (l : List GoFile), (∀ f ∈ l, f.imports = []) → ∀ acc : ImportsMap,
      l.foldl (fun m f =>
        f.imports.foldl (fun m2 r => addImport m2 (resolveImport t d r) (d ++ [f.fname])) m)
        acc = acc := by
    intro l
    induction l with
    | nil => intro _ acc; rfl
    | cons g rest ih =>
      intro hl acc
      have hg : g.imports = [] := hl g (List.mem_cons_self g rest)
      simp only [List.foldl_cons, hg, List.foldl_nil]
      exact ih (fun f hf => hl f (List.mem_cons_of_mem g hf)) acc
  exact aux fs h []

/-- C5: DirPkgInfo returns an explicit empty indicator that is true exactly
when the directory has zero eligible files for the requested mode, and a
present package with no imports is distinguishable from it: its indicator is
false while its imports map is empty. -/
theorem dirPkgInfo_empty_indicator (t : GoTree) (d : DirPath) (mode : PkgMode)
    (fs : List GoFile) (info : PkgInfo) (e : Bool)
    (hfs : filesAt t d = some fs)
    (h : dirPkgInfo t d mode = some (info, e)) :
    (e = true ↔ eligibleFiles fs mode = []) ∧
    ((∀ f ∈ eligibleFiles fs mode, f.imports = []) → info.imports = []) := by
  rw [dirPkgInfo.eq_def, hfs] at h
  simp only [Option.some.injEq, Prod.mk.injEq] at h
  obtain ⟨hinfo, he⟩ := h
  constructor
  · rw [← he]
    exact List.isEmpty_iff
  · intro hI
    rw [← hinfo]
    exact collectImports_nil t d (eligibleFiles fs mode) hI

/-- Witness for C5: a directory with only a core file queried in Test mode is
reported empty, and a present zero-import package is reported non-empty with
an empty imports map. -/
theorem dirPkgInfo_empty_indicator_witness :
    (filesAt treeCore [("p")] = some [⟨("bar.go"), ("bar"), true, []⟩] ∧
      dirPkgInfo treeCore [("p")] PkgMode.Test =
        some (⟨[("p_test")], ("bar"), 1, []⟩, true)) ∧
    ((true = true ↔ eligibleFiles [⟨("bar.go"), ("bar"), true, []⟩] PkgMode.Test = []) ∧
      ((∀ f ∈ eligibleFiles [⟨("bar.go"), ("bar"), true, []⟩] PkgMode.Test,
          f.imports = []) →
        (⟨[("p_test")], ("bar"), 1, []⟩ : PkgInfo).imports = [])) ∧
    dirPkgInfo treeCore [("p")] PkgMode.Default =
      some (⟨[("p")], ("bar"), 1, []⟩, false) :=
  ⟨⟨by decide, by decide⟩,
   dirPkgInfo_empty_indicator treeCore [("p")] PkgMode.Test
     [⟨("bar.go"), ("bar"), true, []⟩] ⟨[("p_test")], ("bar"), 1, []⟩ true
     (by decide) (by decide),
   by decide⟩

/-! Section 11: nearest-vendor-directory-wins resolution (claim C1). -/

lemma ancestorsOf_pairwise (dp : DirPath) :
    (ancestorsOf dp).Pairwise (fun a b => b.length < a.length) := by
  unfold ancestorsOf
  rw [List.pairwise_map]
  have h0 : (List.range (dp.length + 1)).reverse.Pairwise (fun a b => b < a) := by
    rw [List.pairwise_reverse]
    exact List.pairwise_lt_range _
  refine h0.imp_of_mem ?_
  intro a b ha hb hba
  have ha2 : a ≤ dp.length := by
    have := List.mem_range.mp (List.mem_reverse.mp ha)
    omega
  rw [List.length_take, List.length_take]
  omega

lemma find?_max_len {L : List DirPath} {p : DirPath → Bool} {x : DirPath}
    (hpw : L.Pairwise (fun a b => b.length < a.length)) (hf : L.find? p = some x) :
    ∀ y ∈ L, p y = true → y.length ≤ x.length := by
  induction L with
  | nil => simp at hf
  | cons a rest ih =>
    rw [List.pairwise_cons] at hpw
    obtain ⟨hhead, htail⟩ := hpw
    cases hpa : p a with
    | true =>
      simp only [List.find?_cons, hpa, Option.some.injEq] at hf
      subst hf
      intro y hy hpy
      rcases List.mem_cons.mp hy with rfl | hyr
      · exact le_refl _
      · exact le_of_lt (hhead y hyr)
    | false =>
      simp only [List.find?_cons, hpa] at hf
      intro y hy hpy
      rcases List.mem_cons.mp hy with rfl | hyr
      · rw [hpa] at hpy; exact absurd hpy (by simp)
      · exact ih htail hf y hyr hpy

/-- C1: when some ancestor of the importing directory has a vendored copy of
the raw import path, the resolver returns the vendored path of a matching
ancestor that is at least as deep as every matching ancestor — the nearest
(shallowest upward walk) match wins, never one nearer the project root, and
resolution is relative to the importing package's own location. -/
theorem resolveImport_nearestVendorWins (t : GoTree) (src raw d : DirPath)
    (hd : d ∈ ancestorsOf src)
    (hv : dirExists t (vendorCandidate d raw) = true) :
    ∃ w, w ∈ ancestorsOf src ∧ dirExists t (vendorCandidate w raw) = true ∧
      resolveImport t src raw = vendorCandidate w raw ∧
      ∀ e ∈ ancestorsOf src, dirExists t (vendorCandidate e raw) = true →
        e.length ≤ w.length := by
  have hs : ((ancestorsOf src).find? (fun a => dirExists t (vendorCandidate a raw))).isSome := by
    rw [List.find?_isSome]
    exact ⟨d, hd, hv⟩
  obtain ⟨w, hw⟩ := Option.isSome_iff_exists.mp hs
  have hvw0 := List.find?_some hw
  have hvw : dirExists t (vendorCandidate w raw) = true := hvw0
  refine ⟨w, List.mem_of_find?_eq_some hw, hvw, ?_, ?_⟩
  · rw [resolveImport, hw]
  · intro e he hve
    exact find?_max_len (ancestorsOf_pairwise src) hw e he hve

/-- Witness for C1: with the same raw path vendored both next to the importer
and at the project root, resolution from the importer's directory picks the
nearby copy. -/
theorem resolveImport_nearestVendorWins_witness :
    ([("p")] ∈ ancestorsOf [("p"), ("bar")]) ∧
    dirExists treeMultiVendor (vendorCandidate [("p")] [("g"), ("baz")]) = true ∧
    resolveImport treeMultiVendor [("p"), ("bar")] [("g"), ("baz")] =
      [("p"), ("bar"), ("vendor"), ("g"), ("baz")] ∧
    (∃ w, w ∈ ancestorsOf [("p"), ("bar")] ∧
      dirExists treeMultiVendor (vendorCandidate w [("g"), ("baz")]) = true ∧
      resolveImport treeMultiVendor [("p"), ("bar")] [("g"), ("baz")] =
        vendorCandidate w [("g"), ("baz")] ∧
      ∀ e ∈ ancestorsOf [("p"), ("bar")],
        dirExists treeMultiVendor (vendorCandidate e [("g"), ("baz")]) = true →
          e.length ≤ w.length) :=
  ⟨by decide, by decide, by decide,
   resolveImport_nearestVendorWins treeMultiVendor [("p"), ("bar")] [("g"), ("baz")]
     [("p")] (by decide) (by decide)⟩

/-! Section 12: idempotence of vendor resolution (claim C8). -/

lemma dirExists_vendorCount (t : GoTree) (c : DirPath)
    (hle : ∀ e ∈ t, e.path.count ("vendor") ≤ 1)
    (h : dirExists t c = true) : c.count ("vendor") ≤ 1 := by
  rw [dirExists, List.any_eq_true] at h
  obtain ⟨e, he, hpre⟩ := h
  have hp : c <+: e.path := List.isPrefixOf_iff_prefix.mp hpre
  exact le_trans (hp.sublist.count_le _) (hle e he)

/-- C8: vendor resolution is idempotent — on a tree whose directories are
vendored at a single level (no directory path contains two vendor segments),
re-resolving the result of a resolution yields the same path; in particular a
fully-qualified vendor-rooted resolved path resolves to itself. -/
theorem resolveImport_idempotent (t : GoTree) (src raw : DirPath)
    (hle : ∀ e ∈ t, e.path.count ("vendor") ≤ 1) :
    resolveImport t src (resolveImport t src raw) = resolveImport t src raw := by
  cases hfind : (ancestorsOf src).find? (fun a => dirExists t (vendorCandidate a raw)) with
  | none =>
    have hp : resolveImport t src raw = raw := by rw [resolveImport, hfind]
    rw [hp]
    exact hp
  | some d =>
    have hp : resolveImport t src raw = vendorCandidate d raw := by rw [resolveImport, hfind]
    rw [hp]
    have hge : 1 ≤ (vendorCandidate d raw).count ("vendor") := by
      rw [vendorCandidate, List.count_append, List.count_cons_self]
      omega
    have hnone : (ancestorsOf src).find?
        (fun a => dirExists t (vendorCandidate a (vendorCandidate d raw))) = none := by
      rw [List.find?_eq_none]
      intro a _ hEx0
      have hEx : dirExists t (vendorCandidate a (vendorCandidate d raw)) = true := hEx0
      have hub := dirExists_vendorCount t _ hle hEx
      have h2 : 2 ≤ (vendorCandidate a (vendorCandidate d raw)).count ("vendor") := by
        rw [vendorCandidate, List.count_append, List.count_cons_self,
          vendorCandidate, List.count_append, List.count_cons_self]
        omega
      omega
    rw [resolveImport, hnone]

/-- Witness for C8: re-resolving the resolved path of a vendored import in
the single-level-vendored fixture yields the same path. -/
theorem resolveImport_idempotent_witness :
    (∀ e ∈ treeVendored, e.path.count ("vendor") ≤ 1) ∧
    resolveImport treeVendored [("p")]
        (resolveImport treeVendored [("p")] [("github.com"), ("foo")]) =
      resolveImport treeVendored [("p")] [("github.com"), ("foo")] ∧
    resolveImport treeVendored [("p")] [("github.com"), ("foo")] =
      [("p"), ("vendor"), ("github.com"), ("foo")] :=
  ⟨by decide,
   resolveImport_idempotent treeVendored [("p")] [("github.com"), ("foo")] (by decide),
   by decide⟩


/-! Section 13: imports-map attribution lemmas shared by the classifier
claims. -/

lemma lookupImps_addImport_self (m : ImportsMap) (k : DirPath) (file : DirPath) :
    lookupImps (addImport m k file) k = lookupImps m k ++ [file] := by
  induction m with
  | nil => simp [addImport, lookupImps]
  | cons e rest ih =>
    by_cases hek : e.1 = k
    · simp [addImport, hek, lookupImps]
    · simp [addImport, hek, lookupImps, ih]

lemma lookupImps_addImport_ne (m : ImportsMap) (k k2 : DirPath) (file : DirPath)
    (hne : k2 ≠ k) : lookupImps (addImport m k file) k2 = lookupImps m k2 := by
  induction m with
  | nil =>
    have hkk : ¬ (k = k2) := fun h => hne h.symm
    simp [addImport, lookupImps, hkk]
  | cons e rest ih =>
    by_cases hek : e.1 = k
    · have h2 : ¬ (e.1 = k2) := fun h => hne (h.symm.trans hek)
      have hkk : ¬ (k = k2) := fun h => hne h.symm
      simp [addImport, hek, lookupImps, h2, hkk]
    · by_cases he2 : e.1 = k2
      · simp [addImport, hek, lookupImps, he2, hne]
      · simp [addImport, hek, lookupImps, he2, ih]

lemma lookupImps_addImport_mem (m : ImportsMap) (k k2 : DirPath) (file x : DirPath)
    (h : x ∈ lookupImps m k) : x ∈ lookupImps (addImport m k2 file) k := by
  by_cases hk : k = k2
  · subst hk
    rw [lookupImps_addImport_self]
    exact List.mem_append_left _ h
  · rw [lookupImps_addImport_ne m k2 k file hk]
    exact h

lemma lookupImps_addImport_src (m : ImportsMap) (k k2 : DirPath) (file x : DirPath)
    (h : x ∈ lookupImps (addImport m k2 file) k) : x ∈ lookupImps m k ∨ x = file := by
  by_cases hk : k = k2
  · subst hk
    rw [lookupImps_addImport_self] at h
    rcases List.mem_append.mp h with h1 | h1
    · exact Or.inl h1
    · exact Or.inr (List.mem_singleton.mp h1)
  · rw [lookupImps_addImport_ne m k2 k file hk] at h
    exact Or.inl h

lemma foldl_addImport_pres (res : DirPath → DirPath) (file : DirPath) (l : List DirPath)
    (k x : DirPath) :
    ∀ m : ImportsMap, x ∈ lookupImps m k →
      x ∈ lookupImps (l.foldl (fun m2 r => addImport m2 (res r) file) m) k := by
  induction l with
  | nil => exact fun m h => h
  | cons a rest ih =>
    intro m h
    rw [List.foldl_cons]
    exact ih (addImport m (res a) file) (lookupImps_addImport_mem m k (res a) file x h)

lemma foldl_addImport_mem (res : DirPath → DirPath) (file : DirPath) (l : List DirPath)
    (r : DirPath) (hr : r ∈ l) :
    ∀ m : ImportsMap,
      file ∈ lookupImps (l.foldl (fun m2 r2 => addImport m2 (res r2) file) m) (res r) := by
  induction l with
  | nil => exact absurd hr (List.not_mem_nil r)
  | cons a rest ih =>
    intro m
    rw [List.foldl_cons]
    rcases List.mem_cons.mp hr with rfl | hrr
    · apply foldl_addImport_pres
      rw [lookupImps_addImport_self]
      exact List.mem_append_right _ (List.mem_singleton.mpr rfl)
    · exact ih hrr (addImport m (res a) file)

lemma foldl_addImport_src (res : DirPath → DirPath) (file : DirPath) (l : List DirPath)
    (k x : DirPath) :
    ∀ m : ImportsMap, x ∈ lookupImps (l.foldl (fun m2 r => addImport m2 (res r) file) m) k →
      x ∈ lookupImps m k ∨ x = file := by
  induction l with
  | nil => exact fun m h => Or.inl h
  | cons a rest ih =>
    intro m h
    rw [List.foldl_cons] at h
    rcases ih (addImport m (res a) file) h with h1 | h1
    · exact lookupImps_addImport_src m k (res a) file x h1
    · exact Or.inr h1

lemma collectImports_mem (t : GoTree) (d : DirPath) (fs : List GoFile) (f : GoFile)
    (hf : f ∈ fs) (r : DirPath) (hr : r ∈ f.imports) :
    (d ++ [f.fname]) ∈ lookupImps (collectImports t d fs) (resolveImport t d r) := by
  rw [collectImports]
  have aux : ∀ (l : List GoFile), f ∈ l → ∀ m : ImportsMap,
      (d ++ [f.fname]) ∈ lookupImps
        (l.foldl (fun m f =>
          f.imports.foldl (fun m2 r => addImport m2 (resolveImport t d r) (d ++ [f.fname])) m)
          m) (resolveImport t d r) := by
    intro l
    induction l with
    | nil => intro hmem; exact absurd hmem (List.not_mem_nil f)
    | cons g rest ih =>
      intro hmem m
      rw [List.foldl_cons]
      rcases List.mem_cons.mp hmem with rfl | hgr
      · have hbase := foldl_addImport_mem (resolveImport t d) (d ++ [f.fname]) f.imports r hr m
        have haux2 : ∀ (l2 : List GoFile) (m2 : ImportsMap),
            (d ++ [f.fname]) ∈ lookupImps m2 (resolveImport t d r) →
            (d ++ [f.fname]) ∈ lookupImps
              (l2.foldl (fun m f =>
                f.imports.foldl
                  (fun m2 r => addImport m2 (resolveImport t d r) (d ++ [f.fname])) m)
                m2) (resolveImport t d r) := by
          intro l2
          induction l2 with
          | nil => exact fun m2 h => h
          | cons g2 rest2 ih2 =>
            intro m2 h
            rw [List.foldl_cons]
            exact ih2 _
              (foldl_addImport_pres (resolveImport t d) (d ++ [g2.fname]) g2.imports _ _ m2 h)
        exact haux2 rest _ hbase
      · exact ih hgr _
  exact aux fs hf []

lemma collectImports_src (t : GoTree) (d : DirPath) (fs : List GoFile) (k x : DirPath)
    (h : x ∈ lookupImps (collectImports t d fs) k) :
    ∃ g ∈ fs, x = d ++ [g.fname] := by
  rw [collectImports] at h
  have aux : ∀ (l : List GoFile) (m : ImportsMap),
      x ∈ lookupImps
        (l.foldl (fun m f =>
          f.imports.foldl (fun m2 r => addImport m2 (resolveImport t d r) (d ++ [f.fname])) m)
          m) k →
      x ∈ lookupImps m k ∨ ∃ g ∈ l, x = d ++ [g.fname] := by
    intro l
    induction l with
    | nil => exact fun m h2 => Or.inl h2
    | cons g rest ih =>
      intro m h2
      rw [List.foldl_cons] at h2
      rcases ih _ h2 with h3 | h3
      · rcases foldl_addImport_src (resolveImport t d) (d ++ [g.fname]) g.imports k x m h3 with
          h4 | h4
        · exact Or.inl h4
        · exact Or.inr ⟨g, List.mem_cons_self g rest, h4⟩
      · obtain ⟨g2, hg2, hx⟩ := h3
        exact Or.inr ⟨g2, List.mem_cons_of_mem g hg2, hx⟩
  rcases aux fs [] h with h1 | h1
  · simp [lookupImps] at h1
  · exact h1

/-! Section 14: the synthetic external-test package (claim C6). -/

lemma testVariantPath_ne (d : DirPath) : testVariantPath d ≠ d := by
  rcases List.eq_nil_or_concat d with rfl | ⟨l, a, rfl⟩
  · simp [testVariantPath]
  · simp only [List.concat_eq_append]
    rw [testVariantPath, List.dropLast_concat, List.getLast?_concat]
    intro h
    have h2 := List.append_cancel_left h
    simp only [Option.getD_some] at h2
    have h3 : a ++ ("_test") = a := by
      injection h2
    have h4 := congrArg String.length h3
    rw [String.length_append] at h4
    have h5 : ("_test" : String).length = 5 := rfl
    omega

/-- Counterexample for C6: the synthetic package built for a directory whose
only file is an external test file carries the host package name (bar), not
the suffixed name (bar_test); it is the package path, not the name, that
receives the suffix. -/
theorem dirPkgInfo_extTestName_counterexample :
    ∃ r, dirPkgInfo treeExtTest [("p")] PkgMode.Test = some r ∧
      r.1.name = ("bar") ∧ ¬ r.1.name = ("bar") ++ ("_test") ∧
      r.1.path = [("p_test")] := by decide

/-- C6 (amended): external test files are represented by a synthetic package
whose path is the host package's import path with the test suffix appended
(an identity distinct from the host package), while its reported name stays
the host package name; the imports of those files are attributed to the
synthetic package and never to the host package's Default-mode package. -/
theorem dirPkgInfo_externalTest_syntheticPkg (t : GoTree) (d : DirPath)
    (fs : List GoFile) (f : GoFile) (info : PkgInfo) (e : Bool)
    (hfs : filesAt t d = some fs) (hf : f ∈ fs)
    (htest : isTestFname f.fname = true)
    (h : dirPkgInfo t d PkgMode.Test = some (info, e)) :
    info.path = testVariantPath d ∧ info.path ≠ d ∧ info.name = primaryName fs ∧
    (∀ r ∈ f.imports, (d ++ [f.fname]) ∈ lookupImps info.imports (resolveImport t d r)) ∧
    (∀ dInfo eD, dirPkgInfo t d PkgMode.Default = some (dInfo, eD) →
      ∀ k, (d ++ [f.fname]) ∉ lookupImps dInfo.imports k) := by
  rw [dirPkgInfo.eq_def, hfs] at h
  simp only [Option.some.injEq, Prod.mk.injEq] at h
  obtain ⟨hinfo, he⟩ := h
  subst hinfo
  refine ⟨rfl, testVariantPath_ne d, rfl, ?_, ?_⟩
  · intro r hr
    have hfe : f ∈ eligibleFiles fs PkgMode.Test := by
      rw [eligibleFiles]
      exact List.mem_filter.mpr ⟨hf, htest⟩
    exact collectImports_mem t d (eligibleFiles fs PkgMode.Test) f hfe r hr
  · intro dInfo eD hD k hmem
    rw [dirPkgInfo.eq_def, hfs] at hD
    simp only [Option.some.injEq, Prod.mk.injEq] at hD
    obtain ⟨hdinfo, _⟩ := hD
    subst hdinfo
    obtain ⟨g, hg, hx⟩ :=
      collectImports_src t d (eligibleFiles fs PkgMode.Default) k (d ++ [f.fname]) hmem
    rw [eligibleFiles] at hg
    obtain ⟨hgf, hgt⟩ := List.mem_filter.mp hg
    have hfn : [f.fname] = [g.fname] := List.append_cancel_left hx
    have hfn2 : f.fname = g.fname := by injection hfn
    rw [← hfn2] at hgt
    rw [htest] at hgt
    simp at hgt

/-- Witness for C6 (amended): in the external-test fixture, the Test-mode
package lives at the suffixed path, receives the test file's import, and the
Default-mode host package does not. -/
theorem dirPkgInfo_externalTest_syntheticPkg_witness :
    (filesAt treeExtTest [("p")] =
        some [⟨("bar_test.go"), ("bar_test"), true, [[("foo")]]⟩]) ∧
    ([("p_test")] : DirPath) = testVariantPath [("p")] ∧
    ([("p_test")] : DirPath) ≠ [("p")] ∧
    ([("p"), ("bar_test.go")] : DirPath) ∈
      lookupImps ([([("foo")], [[("p"), ("bar_test.go")]])] : ImportsMap)
        (resolveImport treeExtTest [("p")] [("foo")]) ∧
    ([("p"), ("bar_test.go")] : DirPath) ∉ lookupImps ([] : ImportsMap) [("foo")] :=
  have h := dirPkgInfo_externalTest_syntheticPkg treeExtTest [("p")]
    [⟨("bar_test.go"), ("bar_test"), true, [[("foo")]]⟩]
    ⟨("bar_test.go"), ("bar_test"), true, [[("foo")]]⟩
    ⟨[("p_test")], ("bar"), 1, [([("foo")], [[("p"), ("bar_test.go")]])]⟩ false
    (by decide) (by decide) (by decide) (by decide)
  ⟨by decide, h.1, h.2.1,
   h.2.2.2.1 [("foo")] (by decide),
   h.2.2.2.2 ⟨[("p")], ("bar"), 1, []⟩ true (by decide) [("foo")]⟩

/-! Section 15: multiple non-test packages in one directory (claim C7). -/

/-- Counterexample for C7: in the two-package fixture of TestDirPkgInfo the
reported package is foo, yet its reported file count is 2 although only one
file of the directory declares package foo — the count includes the
build-excluded file of the other (main) package. -/
theorem dirPkgInfo_multiPkgCount_counterexample :
    ∃ r, dirPkgInfo treeTwoPkgs [("p")] PkgMode.Default = some r ∧
      r.1.name = ("foo") ∧ r.1.nGoFiles = 2 ∧
      (((filesAt treeTwoPkgs [("p")]).getD []).filter
        (fun f => f.pkg = r.1.name)).length = 1 := by decide

/-- C7 (amended): the classifier does not merge package naming — adding a
build-excluded non-test file declaring a different package leaves the
reported package name unchanged (it is taken from the constraint-satisfied
non-test files) — but the reported file count counts every file of the
directory, so it grows by one with the added file of the other package. -/
theorem dirPkgInfo_excludedPkgFile (t t2 : GoTree) (d : DirPath)
    (fs : List GoFile) (g : GoFile) (i i2 : PkgInfo) (e e2 : Bool)
    (hfs : filesAt t d = some fs) (hfs2 : filesAt t2 d = some (fs ++ [g]))
    (hgtag : g.tagOk = false)
    (hbuild : fs.filter (fun f => ! isTestFname f.fname && f.tagOk) ≠ [])
    (h : dirPkgInfo t d PkgMode.Default = some (i, e))
    (h2 : dirPkgInfo t2 d PkgMode.Default = some (i2, e2)) :
    i2.name = i.name ∧ i2.nGoFiles = i.nGoFiles + 1 := by
  rw [dirPkgInfo.eq_def, hfs] at h
  rw [dirPkgInfo.eq_def, hfs2] at h2
  simp only [Option.some.injEq, Prod.mk.injEq] at h h2
  obtain ⟨hi, _⟩ := h
  obtain ⟨hi2, _⟩ := h2
  subst hi
  subst hi2
  have hPg : (! isTestFname g.fname && g.tagOk) = false := by
    rw [hgtag]
    simp
  have hfilter : (fs ++ [g]).filter (fun f => ! isTestFname f.fname && f.tagOk) =
      fs.filter (fun f => ! isTestFname f.fname && f.tagOk) := by
    rw [List.filter_append]
    simp [List.filter_cons, hPg]
  constructor
  · show primaryName (fs ++ [g]) = primaryName fs
    obtain ⟨c, cs, hc⟩ := List.exists_cons_of_ne_nil hbuild
    rw [primaryName.eq_def, primaryName.eq_def, hfilter, hc]
  · show (fs ++ [g]).length = fs.length + 1
    rw [List.length_append]
    rfl

/-- Witness for C7 (amended): adding the build-excluded main.go to the
one-package fixture keeps the name foo and raises the count from 1 to 2. -/
theorem dirPkgInfo_excludedPkgFile_witness :
    (filesAt treeOnePkg [("p")] = some [⟨("foo.go"), ("foo"), true, []⟩] ∧
      filesAt treeTwoPkgsB [("p")] =
        some ([⟨("foo.go"), ("foo"), true, []⟩] ++ [⟨("main.go"), ("main"), false, []⟩])) ∧
    (("foo") = ("foo") ∧ (2 : Nat) = 1 + 1) :=
  ⟨⟨by decide, by decide⟩,
   dirPkgInfo_excludedPkgFile treeOnePkg treeTwoPkgsB [("p")]
     [⟨("foo.go"), ("foo"), true, []⟩] ⟨("main.go"), ("main"), false, []⟩
     ⟨[("p")], ("foo"), 1, []⟩ ⟨[("p")], ("foo"), 2, []⟩ false false
     (by decide) (by decide) (by decide) (by decide) (by decide) (by decide)⟩

/-! Section 16: the import-classification buckets (claim C3). -/

lemma map_path_mkReportPkg (t : GoTree) (pkgs : List (PkgClass × PkgInfo))
    (l : List DirPath) : (l.map (mkReportPkg t pkgs)).map (fun x => x.path) = l := by
  induction l with
  | nil => rfl
  | cons a rest ih => simp [mkReportPkg, ih]

lemma report_imports_paths (t : GoTree) (proj : DirPath) :
    (createImportReport t proj).imports.map (fun x => x.path) =
      (externalImports t proj).filter
        (fun e => bucketOf (projectPkgs t proj) e = PkgClass.core) :=
  map_path_mkReportPkg t (projectPkgs t proj) _

lemma report_mainOnly_paths (t : GoTree) (proj : DirPath) :
    (createImportReport t proj).mainOnlyImports.map (fun x => x.path) =
      (externalImports t proj).filter
        (fun e => bucketOf (projectPkgs t proj) e = PkgClass.main) :=
  map_path_mkReportPkg t (projectPkgs t proj) _

lemma report_testOnly_paths (t : GoTree) (proj : DirPath) :
    (createImportReport t proj).testOnlyImports.map (fun x => x.path) =
      (externalImports t proj).filter
        (fun e => bucketOf (projectPkgs t proj) e = PkgClass.testC) :=
  map_path_mkReportPkg t (projectPkgs t proj) _

lemma externalImports_nodup (t : GoTree) (proj : DirPath) :
    (externalImports t proj).Nodup := by
  rw [externalImports]
  exact List.nodup_dedup _

lemma bucketOf_core_iff (pkgs : List (PkgClass × PkgInfo)) (e : DirPath) :
    bucketOf pkgs e = PkgClass.core ↔ importedByClass pkgs PkgClass.core e = true := by
  rw [bucketOf]
  cases hcore : importedByClass pkgs PkgClass.core e <;>
    cases hmain : importedByClass pkgs PkgClass.main e <;> simp

lemma bucketOf_main_iff (pkgs : List (PkgClass × PkgInfo)) (e : DirPath) :
    bucketOf pkgs e = PkgClass.main ↔
      importedByClass pkgs PkgClass.core e = false ∧
      importedByClass pkgs PkgClass.main e = true := by
  rw [bucketOf]
  cases hcore : importedByClass pkgs PkgClass.core e <;>
    cases hmain : importedByClass pkgs PkgClass.main e <;> simp

lemma bucketOf_testC_iff (pkgs : List (PkgClass × PkgInfo)) (e : DirPath) :
    bucketOf pkgs e = PkgClass.testC ↔
      importedByClass pkgs PkgClass.core e = false ∧
      importedByClass pkgs PkgClass.main e = false := by
  rw [bucketOf]
  cases hcore : importedByClass pkgs PkgClass.core e <;>
    cases hmain : importedByClass pkgs PkgClass.main e <;> simp

/-- C3: the three report buckets have no duplicates, are pairwise disjoint,
together cover exactly the external imported packages, and obey the
core-beats-main-beats-test precedence: a package with any core importer lands
in the core bucket; one with no core importer but a main importer lands in
the main-only bucket; one imported only by test packages lands in the
test-only bucket. -/
theorem createImportReport_partition (t : GoTree) (proj : DirPath) :
    ((createImportReport t proj).imports.map (fun x => x.path)).Nodup ∧
    ((createImportReport t proj).mainOnlyImports.map (fun x => x.path)).Nodup ∧
    ((createImportReport t proj).testOnlyImports.map (fun x => x.path)).Nodup ∧
    (∀ e : DirPath,
      (e ∈ (createImportReport t proj).imports.map (fun x => x.path) ∨
        e ∈ (createImportReport t proj).mainOnlyImports.map (fun x => x.path) ∨
        e ∈ (createImportReport t proj).testOnlyImports.map (fun x => x.path)) ↔
      e ∈ externalImports t proj) ∧
    (∀ e : DirPath,
      ¬ (e ∈ (createImportReport t proj).imports.map (fun x => x.path) ∧
        e ∈ (createImportReport t proj).mainOnlyImports.map (fun x => x.path))) ∧
    (∀ e : DirPath,
      ¬ (e ∈ (createImportReport t proj).imports.map (fun x => x.path) ∧
        e ∈ (createImportReport t proj).testOnlyImports.map (fun x => x.path))) ∧
    (∀ e : DirPath,
      ¬ (e ∈ (createImportReport t proj).mainOnlyImports.map (fun x => x.path) ∧
        e ∈ (createImportReport t proj).testOnlyImports.map (fun x => x.path))) ∧
    (∀ e ∈ externalImports t proj,
      importedByClass (projectPkgs t proj) PkgClass.core e = true →
      e ∈ (createImportReport t proj).imports.map (fun x => x.path)) ∧
    (∀ e ∈ externalImports t proj,
      importedByClass (projectPkgs t proj) PkgClass.core e = false →
      importedByClass (projectPkgs t proj) PkgClass.main e = true →
      e ∈ (createImportReport t proj).mainOnlyImports.map (fun x => x.path)) ∧
    (∀ e ∈ externalImports t proj,
      importedByClass (projectPkgs t proj) PkgClass.core e = false →
      importedByClass (projectPkgs t proj) PkgClass.main e = false →
      e ∈ (createImportReport t proj).testOnlyImports.map (fun x => x.path)) := by
  rw [report_imports_paths, report_mainOnly_paths, report_testOnly_paths]
  have hnd := externalImports_nodup t proj
  refine ⟨hnd.filter _, hnd.filter _, hnd.filter _, ?_, ?_, ?_, ?_, ?_, ?_, ?_⟩
  · intro e
    constructor
    · intro h
      rcases h with h | h | h <;> exact (List.mem_filter.mp h).1
    · intro he
      cases hb : bucketOf (projectPkgs t proj) e with
      | core => exact Or.inl (List.mem_filter.mpr ⟨he, by simp [hb]⟩)
      | main => exact Or.inr (Or.inl (List.mem_filter.mpr ⟨he, by simp [hb]⟩))
      | testC => exact Or.inr (Or.inr (List.mem_filter.mpr ⟨he, by simp [hb]⟩))
  · rintro e ⟨h1, h2⟩
    have hb1 := (List.mem_filter.mp h1).2
    have hb2 := (List.mem_filter.mp h2).2
    simp only [decide_eq_true_eq] at hb1 hb2
    rw [hb1] at hb2
    exact PkgClass.noConfusion hb2
  · rintro e ⟨h1, h2⟩
    have hb1 := (List.mem_filter.mp h1).2
    have hb2 := (List.mem_filter.mp h2).2
    simp only [decide_eq_true_eq] at hb1 hb2
    rw [hb1] at hb2
    exact PkgClass.noConfusion hb2
  · rintro e ⟨h1, h2⟩
    have hb1 := (List.mem_filter.mp h1).2
    have hb2 := (List.mem_filter.mp h2).2
    simp only [decide_eq_true_eq] at hb1 hb2
    rw [hb1] at hb2
    exact PkgClass.noConfusion hb2
  · intro e he hcore
    refine List.mem_filter.mpr ⟨he, ?_⟩
    simp only [decide_eq_true_eq]
    exact (bucketOf_core_iff _ _).mpr hcore
  · intro e he hcore hmain
    refine List.mem_filter.mpr ⟨he, ?_⟩
    simp only [decide_eq_true_eq]
    exact (bucketOf_main_iff _ _).mpr ⟨hcore, hmain⟩
  · intro e he hcore hmain
    refine List.mem_filter.mpr ⟨he, ?_⟩
    simp only [decide_eq_true_eq]
    exact (bucketOf_testC_iff _ _).mpr ⟨hcore, hmain⟩

/-! Section 17: transitive closure and de-duplicated file counting (claim
C2). -/

lemma iterN_succ_outer (f : α → α) (n : Nat) (x : α) :
    iterN f (n + 1) x = f (iterN f n x) := by
  induction n generalizing x with
  | zero => rfl
  | succ n ih =>
    show iterN f (n + 1) (f x) = f (iterN f (n + 1) x)
    rw [ih (f x)]
    rfl

lemma mem_expandOnce {g : DepGraph} {s : List DirPath} {x : DirPath} :
    x ∈ expandOnce g s ↔ ∃ q ∈ s, x = q ∨ x ∈ adjOf g q := by
  simp [expandOnce, List.mem_dedup, List.mem_flatMap, List.mem_cons]

lemma subset_expandOnce (g : DepGraph) (s : List DirPath) : s ⊆ expandOnce g s :=
  fun x hx => mem_expandOnce.mpr ⟨x, hx, Or.inl rfl⟩

lemma adjOf_subset_univ (g : DepGraph) (p q x : DirPath) (hx : x ∈ adjOf g q) :
    x ∈ graphUniv g p := by
  rw [adjOf] at hx
  cases hnd : nodeOf g q with
  | none => rw [hnd] at hx; exact absurd hx (List.not_mem_nil x)
  | some nd =>
    rw [hnd] at hx
    have hmem : nd ∈ g := List.mem_of_find?_eq_some hnd
    rw [graphUniv]
    exact List.mem_cons_of_mem p
      (List.mem_flatMap.mpr ⟨nd, hmem, List.mem_cons_of_mem _ hx⟩)

lemma expandOnce_subset_univ (g : DepGraph) (p : DirPath) (s : List DirPath)
    (hs : s ⊆ graphUniv g p) : expandOnce g s ⊆ graphUniv g p := by
  intro x hx
  rcases mem_expandOnce.mp hx with ⟨q, hq, hxq | hxadj⟩
  · exact hxq ▸ hs hq
  · exact adjOf_subset_univ g p q x hxadj

lemma iterN_subset_univ (g : DepGraph) (p : DirPath) :
    ∀ n, iterN (expandOnce g) n [p] ⊆ graphUniv g p := by
  intro n
  induction n with
  | zero =>
    intro x hx
    rcases List.mem_singleton.mp hx with rfl
    exact List.mem_cons_self _ _
  | succ n ih =>
    rw [iterN_succ_outer]
    exact expandOnce_subset_univ g p _ ih

lemma iterN_mono_succ (g : DepGraph) (p : DirPath) (n : Nat) :
    iterN (expandOnce g) n [p] ⊆ iterN (expandOnce g) (n + 1) [p] := by
  rw [iterN_succ_outer]
  exact subset_expandOnce g _

lemma iterN_mono_le (g : DepGraph) (p : DirPath) {m n : Nat} (h : m ≤ n) :
    iterN (expandOnce g) m [p] ⊆ iterN (expandOnce g) n [p] := by
  induction n with
  | zero =>
    have hm : m = 0 := Nat.le_zero.mp h
    subst hm
    exact fun x hx => hx
  | succ n ihn =>
    by_cases hm : m ≤ n
    · exact fun x hx => iterN_mono_succ g p n (ihn hm hx)
    · have : m = n + 1 := Nat.le_antisymm h (Nat.succ_le_of_lt (Nat.not_le.mp hm))
      subst this
      exact fun x hx => hx

lemma expandOnce_congr (g : DepGraph) {s s2 : List DirPath}
    (h : ∀ y, y ∈ s ↔ y ∈ s2) (x : DirPath) :
    x ∈ expandOnce g s ↔ x ∈ expandOnce g s2 := by
  rw [mem_expandOnce, mem_expandOnce]
  constructor
  · rintro ⟨q, hq, hx⟩
    exact ⟨q, (h q).mp hq, hx⟩
  · rintro ⟨q, hq, hx⟩
    exact ⟨q, (h q).mpr hq, hx⟩

lemma exists_stab (g : DepGraph) (p : DirPath) :
    ∃ n, n ≤ reachBound g p ∧
      ∀ x, x ∈ iterN (expandOnce g) (n + 1) [p] ↔ x ∈ iterN (expandOnce g) n [p] := by
  by_contra hcon
  push_neg at hcon
  have hgrow : ∀ n, n ≤ reachBound g p →
      ∃ x, x ∈ iterN (expandOnce g) (n + 1) [p] ∧ x ∉ iterN (expandOnce g) n [p] := by
    intro n hn
    obtain ⟨x, hx⟩ := hcon n hn
    rcases hx with ⟨h1, h2⟩ | ⟨h1, h2⟩
    · exact ⟨x, h1, h2⟩
    · exact absurd (iterN_mono_succ g p n h2) h1
  have hcard : ∀ n, n ≤ reachBound g p →
      n + 1 ≤ (iterN (expandOnce g) n [p]).toFinset.card := by
    intro n
    induction n with
    | zero =>
      intro _
      have : p ∈ (iterN (expandOnce g) 0 [p]).toFinset := by
        rw [List.mem_toFinset]
        exact List.mem_singleton.mpr rfl
      exact Finset.card_pos.mpr ⟨p, this⟩
    | succ n ih =>
      intro hn
      have hn2 : n ≤ reachBound g p := Nat.le_of_succ_le hn
      obtain ⟨x, hx1, hx2⟩ := hgrow n hn2
      have hss : (iterN (expandOnce g) n [p]).toFinset ⊂
          (iterN (expandOnce g) (n + 1) [p]).toFinset := by
        rw [Finset.ssubset_def]
        constructor
        · intro y hy
          rw [List.mem_toFinset] at hy ⊢
          exact iterN_mono_succ g p n hy
        · intro hsub
          have := hsub (List.mem_toFinset.mpr hx1)
          rw [List.mem_toFinset] at this
          exact hx2 this
      have := Finset.card_lt_card hss
      have := ih hn2
      omega
  have hfin := hcard (reachBound g p) (le_refl _)
  have hub : (iterN (expandOnce g) (reachBound g p) [p]).toFinset.card ≤ reachBound g p := by
    have hsub : (iterN (expandOnce g) (reachBound g p) [p]).toFinset ⊆
        (graphUniv g p).toFinset := by
      intro y hy
      rw [List.mem_toFinset] at hy ⊢
      exact iterN_subset_univ g p _ hy
    have := Finset.card_le_card hsub
    rw [List.card_toFinset] at this
    exact this
  omega

lemma expand_final_subset (g : DepGraph) (p : DirPath) :
    ∀ x, x ∈ expandOnce g (iterN (expandOnce g) (reachBound g p) [p]) →
      x ∈ iterN (expandOnce g) (reachBound g p) [p] := by
  obtain ⟨n0, hn0B, hstab⟩ := exists_stab g p
  have hseq : ∀ k x, x ∈ iterN (expandOnce g) (n0 + k) [p] ↔
      x ∈ iterN (expandOnce g) n0 [p] := by
    intro k
    induction k with
    | zero => intro x; rfl
    | succ k ihk =>
      intro x
      have h1 : iterN (expandOnce g) (n0 + (k + 1)) [p] =
          expandOnce g (iterN (expandOnce g) (n0 + k) [p]) := by
        rw [show n0 + (k + 1) = (n0 + k) + 1 from rfl, iterN_succ_outer]
      rw [h1]
      constructor
      · intro hx
        have h2 : x ∈ expandOnce g (iterN (expandOnce g) n0 [p]) :=
          (expandOnce_congr g ihk x).mp hx
        have h3 : x ∈ iterN (expandOnce g) (n0 + 1) [p] := by
          rw [iterN_succ_outer]
          exact h2
        exact (hstab x).mp h3
      · intro hx
        exact subset_expandOnce g _ ((ihk x).mpr hx)
  obtain ⟨k, hk⟩ : ∃ k, reachBound g p = n0 + k :=
    ⟨reachBound g p - n0, by omega⟩
  intro x hx
  rw [hk] at hx ⊢
  have h2 : x ∈ expandOnce g (iterN (expandOnce g) n0 [p]) :=
    (expandOnce_congr g (hseq k) x).mp hx
  have h3 : x ∈ iterN (expandOnce g) (n0 + 1) [p] := by
    rw [iterN_succ_outer]
    exact h2
  exact (hseq k x).mpr ((hstab x).mp h3)

lemma iterN_expand_sound (g : DepGraph) (p : DirPath) :
    ∀ (n : Nat) (s : List DirPath), (∀ q ∈ s, Reaches g p q) →
      ∀ x ∈ iterN (expandOnce g) n s, Reaches g p x := by
  intro n
  induction n with
  | zero => exact fun s hs x hx => hs x hx
  | succ n ih =>
    intro s hs x hx
    refine ih (expandOnce g s) ?_ x hx
    intro q hq
    rcases mem_expandOnce.mp hq with ⟨y, hy, hqy | hqadj⟩
    · exact hqy ▸ hs y hy
    · exact Reaches.tail (hs y hy) hqadj

lemma reaches_mem_final (g : DepGraph) (p x : DirPath) (h : Reaches g p x) :
    x ∈ iterN (expandOnce g) (reachBound g p) [p] := by
  induction h with
  | refl =>
    exact iterN_mono_le g p (Nat.zero_le _) (List.mem_singleton.mpr rfl)
  | tail hq hr ih =>
    exact expand_final_subset g p _ (mem_expandOnce.mpr ⟨_, ih, Or.inr hr⟩)

/-- C2: the visited set of the transitive-closure traversal contains every
package exactly once — it has no duplicates and holds precisely the packages
reachable from the queried package — and NTotalGoFiles is the sum of the
direct file counts over that de-duplicated set, so a diamond dependency
contributes its file count exactly once. -/
theorem nTotalGoFiles_deduplicated (g : DepGraph) (p : DirPath) :
    (reachList g p).Nodup ∧ (∀ q, q ∈ reachList g p ↔ Reaches g p q) ∧
    nTotalGoFiles g p = ((reachList g p).map (nGoFiles g)).sum := by
  refine ⟨List.nodup_dedup _, ?_, rfl⟩
  intro q
  rw [reachList, List.mem_dedup]
  constructor
  · intro hq
    refine iterN_expand_sound g p (reachBound g p) [p] ?_ q hq
    intro y hy
    rcases List.mem_singleton.mp hy with rfl
    exact Reaches.refl y
  · exact reaches_mem_final g p q

/-- Witness for C2: in the diamond fixture the shared two-file sink is
counted once, giving a total of five files from the root. -/
theorem nTotalGoFiles_deduplicated_witness :
    nTotalGoFiles diamondGraph [("foo")] = 5 ∧
    (reachList diamondGraph [("foo")]).Nodup ∧
    nTotalGoFiles diamondGraph [("foo")] =
      ((reachList diamondGraph [("foo")]).map (nGoFiles diamondGraph)).sum :=
  ⟨by decide, (nTotalGoFiles_deduplicated diamondGraph [("foo")]).1,
   (nTotalGoFiles_deduplicated diamondGraph [("foo")]).2.2⟩

/-- Witness for C3: in the main-and-test fixture the external package with a
main importer and a test importer (and no core importer) lands in the
main-only bucket. -/
theorem createImportReport_partition_witness :
    ([("bar")] ∈ externalImports treeReport [("proj")]) ∧
    importedByClass (projectPkgs treeReport [("proj")]) PkgClass.core [("bar")] = false ∧
    importedByClass (projectPkgs treeReport [("proj")]) PkgClass.main [("bar")] = true ∧
    [("bar")] ∈ (createImportReport treeReport [("proj")]).mainOnlyImports.map
      (fun x => x.path) :=
  ⟨by decide, by decide, by decide,
   (createImportReport_partition treeReport [("proj")]).2.2.2.2.2.2.2.2.1
     [("bar")] (by decide) (by decide) (by decide)⟩

/-! Section 18: license application and removal round-trip (claim C9). -/

lemma fsRead_fsWrite_self (fs : FileSys) (p : String) (v c : List Char)
    (h : fsRead fs p = some v) : fsRead (fsWrite fs p c) p = some c := by
  induction fs with
  | nil => simp [fsRead] at h
  | cons e rest ih =>
    by_cases hep : e.1 = p
    · simp [fsWrite, hep, fsRead]
    · rw [fsRead, if_neg hep] at h
      simp only [fsWrite, if_neg hep, fsRead]
      exact ih h

lemma fsRead_fsWrite_other (fs : FileSys) (p q : String) (c : List Char)
    (h : q ≠ p) : fsRead (fsWrite fs p c) q = fsRead fs q := by
  induction fs with
  | nil => simp [fsWrite]
  | cons e rest ih =>
    by_cases hep : e.1 = p
    · have hpq : ¬ ((p : String) = q) := fun h2 => h h2.symm
      have heq : ¬ (e.1 = q) := by
        rw [hep]
        exact hpq
      simp only [fsWrite, if_pos hep, fsRead, if_neg hpq, if_neg heq]
    · simp only [fsWrite, if_neg hep, fsRead]
      by_cases heq : e.1 = q
      · rw [if_pos heq, if_pos heq]
      · rw [if_neg heq, if_neg heq]
        exact ih

lemma fsWrite_cancel (fs : FileSys) (p : String) (v c : List Char)
    (h : fsRead fs p = some v) : fsWrite (fsWrite fs p c) p v = fs := by
  induction fs with
  | nil => simp [fsRead] at h
  | cons e rest ih =>
    by_cases hep : e.1 = p
    · rw [fsRead, if_pos hep] at h
      have hv : e.2 = v := by injection h
      have h1 : fsWrite (e :: rest) p c = (p, c) :: rest := by simp [fsWrite, hep]
      rw [h1]
      have h2 : fsWrite ((p, c) :: rest) p v = (p, v) :: rest := by simp [fsWrite]
      rw [h2, ← hv, ← hep]
    · rw [fsRead, if_neg hep] at h
      simp only [fsWrite, if_neg hep]
      rw [ih h]

lemma visitFiles_singleton (vis : FileSys → String → List Char → Bool × FileSys)
    (f : String) (fs : FileSys) (c : List Char) (hread : fsRead fs f = some c) :
    visitFiles vis [f] fs =
      some ((if (vis fs f c).1 then [f] else []), (vis fs f c).2) := by
  rw [visitFiles, hread]
  rfl

lemma processFiles_plain
    (op : List String → List Char → Bool → FileSys → Option (List String × FileSys))
    (h : List Char) (files : List String) (modify : Bool) (fs : FileSys) :
    processFiles files ⟨h, [], fun _ => false⟩ modify op fs =
      (match op (files.filter (fun x => isGoFileName x)) h modify fs with
       | none => none
       | some (mods, fs2) => some (sortStrs mods, fs2)) := by
  rw [processFiles]
  have hval : validateOk ⟨h, [], fun _ => false⟩ = true := rfl
  rw [if_pos hval]
  have hfl : (files.filter
      (fun x => isGoFileName x && ! (⟨h, [], fun _ => false⟩ : LicenseParams).exclude x)) =
      files.filter (fun x => isGoFileName x) := by
    apply List.filter_congr
    intro x _
    simp
  rw [hfl]
  have hun : (files.filter (fun x => isGoFileName x)).filter
      (fun x => (bestMatcher ([] : List CustomLicenseParam) x).1 = ("")) =
      files.filter (fun x => isGoFileName x) := by
    apply List.filter_eq_self.mpr
    intro x _
    rfl
  show (match op ((files.filter (fun x => isGoFileName x)).filter
      (fun x => (bestMatcher ([] : List CustomLicenseParam) x).1 = (""))) h modify fs with
    | none => none
    | some (mods2, fs2) => some (sortStrs ([] ++ mods2), fs2)) = _
  rw [hun]
  cases op (files.filter (fun x => isGoFileName x)) h modify fs with
  | none => rfl
  | some r =>
    rcases r with ⟨mods2, fs2⟩
    show some (sortStrs ([] ++ mods2), fs2) = some (sortStrs mods2, fs2)
    rw [List.nil_append]

/-- C9: for a go file whose content does not begin with header-plus-newline,
LicenseFiles with modify set prepends exactly that prefix and reports the
file modified, and UnlicenseFiles with modify set on the result strips
exactly that prefix, restoring the original filesystem; a file already
carrying the header is left unchanged and unreported. -/
theorem licenseFiles_roundTrip (f : String) (h C : List Char) (fs : FileSys)
    (hgo : isGoFileName f = true) (hread : fsRead fs f = some C) :
    ((h ++ nl).isPrefixOf C = false →
      licenseFiles [f] ⟨h, [], fun _ => false⟩ true fs =
        some ([f], fsWrite fs f (h ++ nl ++ C)) ∧
      unlicenseFiles [f] ⟨h, [], fun _ => false⟩ true (fsWrite fs f (h ++ nl ++ C)) =
        some ([f], fs)) ∧
    ((h ++ nl).isPrefixOf C = true →
      licenseFiles [f] ⟨h, [], fun _ => false⟩ true fs = some ([], fs)) := by
  have hfl : ([f].filter (fun x => isGoFileName x)) = [f] := by simp [hgo]
  constructor
  · intro hpre
    have hchg : applyChg h C = true := by rw [applyChg, hpre]; rfl
    constructor
    · rw [licenseFiles, processFiles_plain, hfl, applyLicenseToFiles,
        visitFiles_singleton _ f fs C hread]
      rw [mkVisitor, hchg]
      show some (sortStrs [f], fsWrite fs f (applyUpd h C)) = _
      rw [applyUpd]
      rfl
    · have hr2 : fsRead (fsWrite fs f (h ++ nl ++ C)) f = some (h ++ nl ++ C) :=
        fsRead_fsWrite_self fs f C (h ++ nl ++ C) hread
      have hchg2 : removeChg h (h ++ nl ++ C) = true := by
        rw [removeChg]
        exact List.isPrefixOf_iff_prefix.mpr (List.prefix_append _ _)
      have hupd2 : removeUpd h (h ++ nl ++ C) = C := by
        rw [removeUpd]
        have hlen : (h ++ nl).length = h.length + 1 := by rw [List.length_append]; rfl
        rw [← hlen, List.drop_left]
      rw [unlicenseFiles, processFiles_plain, hfl, removeLicenseFromFiles,
        visitFiles_singleton _ f _ _ hr2]
      rw [mkVisitor, hchg2]
      show some (sortStrs [f], fsWrite (fsWrite fs f (h ++ nl ++ C)) f
        (removeUpd h (h ++ nl ++ C))) = _
      rw [hupd2, fsWrite_cancel fs f C (h ++ nl ++ C) hread]
      rfl
  · intro hpre
    have hchg : applyChg h C = false := by rw [applyChg, hpre]; rfl
    rw [licenseFiles, processFiles_plain, hfl, applyLicenseToFiles,
      visitFiles_singleton _ f fs C hread]
    rw [mkVisitor, hchg]
    rfl

/-- Witness for C9: the round trip on a concrete unlicensed go file. -/
theorem licenseFiles_roundTrip_witness :
    (licenseFiles [("a.go")] ⟨("// L").data, [], fun _ => false⟩ true fsPlain =
        some ([("a.go")],
          fsWrite fsPlain ("a.go") (("// L").data ++ nl ++ ("package a").data)) ∧
      unlicenseFiles [("a.go")] ⟨("// L").data, [], fun _ => false⟩ true
          (fsWrite fsPlain ("a.go") (("// L").data ++ nl ++ ("package a").data)) =
        some ([("a.go")], fsPlain)) ∧
    fsWrite fsPlain ("a.go") (("// L").data ++ nl ++ ("package a").data) = fsLicensed :=
  ⟨(licenseFiles_roundTrip ("a.go") (("// L").data) (("package a").data) fsPlain
      (by decide) (by decide)).1 (by decide),
   by decide⟩

/-! Section 19: dry-run semantics of processFiles (claim C10). -/

lemma mkVisitor_fst (chg : List Char → Bool) (upd : List Char → List Char)
    (modify : Bool) (fs : FileSys) (p : String) (c : List Char) :
    (mkVisitor chg upd modify fs p c).1 = chg c := by
  by_cases hc : chg c <;> simp [mkVisitor, hc]

lemma mkVisitor_false_snd (chg : List Char → Bool) (upd : List Char → List Char)
    (fs : FileSys) (p : String) (c : List Char) :
    (mkVisitor chg upd false fs p c).2 = fs := by
  by_cases hc : chg c <;> simp [mkVisitor, hc]

lemma mkVisitor_true_snd_read (chg : List Char → Bool) (upd : List Char → List Char)
    (fs : FileSys) (p q : String) (c : List Char) (h : q ≠ p) :
    fsRead (mkVisitor chg upd true fs p c).2 q = fsRead fs q := by
  by_cases hc : chg c
  · simp only [mkVisitor, hc, if_true]
    exact fsRead_fsWrite_other fs p q (upd c) h
  · simp [mkVisitor, hc]

lemma visitFiles_false_noWrite (chg : List Char → Bool) (upd : List Char → List Char) :
    ∀ (files : List String) (fs : FileSys) (r : List String × FileSys),
      visitFiles (mkVisitor chg upd false) files fs = some r → r.2 = fs := by
  intro files
  induction files with
  | nil =>
    intro fs r h
    rw [visitFiles] at h
    injection h with h2
    rw [← h2]
  | cons f rest ih =>
    intro fs r h
    rw [visitFiles] at h
    cases hread : fsRead fs f with
    | none =>
      simp only [hread] at h
      exact Option.noConfusion h
    | some c =>
      simp only [hread] at h
      cases hrec : visitFiles (mkVisitor chg upd false) rest
          (mkVisitor chg upd false fs f c).2 with
      | none =>
        simp only [hrec] at h
        exact Option.noConfusion h
      | some r2 =>
        rcases r2 with ⟨mods2, fs2⟩
        simp only [hrec] at h
        have hr2 : fs2 = fs := by
          have h3 := ih _ (mods2, fs2) hrec
          rw [mkVisitor_false_snd chg upd fs f c] at h3
          exact h3
        injection h with h2
        rw [← h2]
        exact hr2

lemma visitFiles_dry (chg : List Char → Bool) (upd : List Char → List Char) :
    ∀ (files : List String) (fsT fs0 : FileSys),
      files.Nodup → (∀ x ∈ files, fsRead fsT x = fsRead fs0 x) →
      ((visitFiles (mkVisitor chg upd true) files fsT).map (fun r => r.1) =
        (visitFiles (mkVisitor chg upd false) files fs0).map (fun r => r.1)) ∧
      (∀ r, visitFiles (mkVisitor chg upd true) files fsT = some r →
        ∀ q, q ∉ files → fsRead r.2 q = fsRead fsT q) := by
  intro files
  induction files with
  | nil =>
    intro fsT fs0 _ _
    constructor
    · rfl
    · intro r h q _
      rw [visitFiles] at h
      injection h with h2
      rw [← h2]
  | cons f rest ih =>
    intro fsT fs0 hnd hrd
    have hndr : rest.Nodup := hnd.of_cons
    have hfnr : f ∉ rest := (List.nodup_cons.mp hnd).1
    have hreadf : fsRead fsT f = fsRead fs0 f := hrd f (List.mem_cons_self f rest)
    cases hr0 : fsRead fs0 f with
    | none =>
      have hrT : fsRead fsT f = none := hreadf.trans hr0
      constructor
      · rw [visitFiles, visitFiles]
        simp only [hrT, hr0]
      · intro r h
        rw [visitFiles] at h
        simp only [hrT] at h
        exact Option.noConfusion h
    | some c =>
      have hrT : fsRead fsT f = some c := hreadf.trans hr0
      have hrdrest : ∀ x ∈ rest,
          fsRead (mkVisitor chg upd true fsT f c).2 x = fsRead fs0 x := by
        intro x hx
        have hxf : x ≠ f := fun hh => hfnr (hh ▸ hx)
        rw [mkVisitor_true_snd_read chg upd fsT f x c hxf]
        exact hrd x (List.mem_cons_of_mem f hx)
      obtain ⟨hmap, hpres⟩ := ih (mkVisitor chg upd true fsT f c).2 fs0 hndr hrdrest
      cases hrecT : visitFiles (mkVisitor chg upd true) rest
          (mkVisitor chg upd true fsT f c).2 with
      | none =>
        cases hrec0 : visitFiles (mkVisitor chg upd false) rest fs0 with
        | some r0 =>
          rw [hrecT, hrec0] at hmap
          exact Option.noConfusion hmap
        | none =>
          constructor
          · rw [visitFiles, visitFiles]
            simp only [hrT, hr0, mkVisitor_false_snd, hrecT, hrec0]
          · intro r h
            rw [visitFiles] at h
            simp only [hrT, hrecT] at h
            exact Option.noConfusion h
      | some rT =>
        cases hrec0 : visitFiles (mkVisitor chg upd false) rest fs0 with
        | none =>
          rw [hrecT, hrec0] at hmap
          exact Option.noConfusion hmap
        | some r0 =>
          rw [hrecT, hrec0] at hmap
          simp only [Option.map_some'] at hmap
          injection hmap with hfst
          rcases rT with ⟨modsT, fsTf⟩
          rcases r0 with ⟨mods0, fs0f⟩
          simp only at hfst
          constructor
          · rw [visitFiles, visitFiles]
            simp only [hrT, hr0, mkVisitor_false_snd, hrecT, hrec0, Option.map_some',
              Option.some.injEq]
            rw [mkVisitor_fst, mkVisitor_fst, hfst]
          · intro r h q hq
            have hqf : q ≠ f := fun hh => hq (hh ▸ List.mem_cons_self f rest)
            have hqr : q ∉ rest := fun hh => hq (List.mem_cons_of_mem f hh)
            rw [visitFiles] at h
            simp only [hrT, hrecT] at h
            injection h with h2
            rw [← h2]
            show fsRead fsTf q = fsRead fsT q
            have hstep := hpres (modsT, fsTf) hrecT q hqr
            rw [hstep]
            exact mkVisitor_true_snd_read chg upd fsT f q c hqf

lemma mem_groupOf {chs : List CustomLicenseParam} {goFiles : List String}
    {v : CustomLicenseParam} {x : String} :
    x ∈ groupOf chs goFiles v ↔ x ∈ goFiles ∧ (bestMatcher chs x).1 = v.name := by
  simp [groupOf, List.mem_filter]

lemma runCustomLoop_false_noWrite
    (op : List String → List Char → Bool → FileSys → Option (List String × FileSys))
    (hfalse : ∀ gl hdr fs r, op gl hdr false fs = some r → r.2 = fs)
    (chs : List CustomLicenseParam) (goFiles : List String) :
    ∀ (pending : List CustomLicenseParam) (fs : FileSys) (r : List String × FileSys),
      runCustomLoop op chs goFiles false pending fs = some r → r.2 = fs := by
  intro pending
  induction pending with
  | nil =>
    intro fs r h
    rw [runCustomLoop] at h
    injection h with h2
    rw [← h2]
  | cons v rest ih =>
    intro fs r h
    rw [runCustomLoop] at h
    cases ho : op (groupOf chs goFiles v) v.header false fs with
    | none =>
      simp only [ho] at h
      exact Option.noConfusion h
    | some r1 =>
      rcases r1 with ⟨m1, fs1⟩
      simp only [ho] at h
      cases hrec : runCustomLoop op chs goFiles false rest fs1 with
      | none =>
        simp only [hrec] at h
        exact Option.noConfusion h
      | some r2 =>
        rcases r2 with ⟨m2, fs2⟩
        simp only [hrec] at h
        injection h with h2
        rw [← h2]
        show fs2 = fs
        have h3 : fs2 = fs1 := ih fs1 (m2, fs2) hrec
        rw [h3]
        exact hfalse _ _ _ _ ho

lemma runCustomLoop_dry
    (op : List String → List Char → Bool → FileSys → Option (List String × FileSys))
    (hdry : ∀ (gl : List String) (hdr : List Char) (fsT fs0 : FileSys), gl.Nodup →
      (∀ x ∈ gl, fsRead fsT x = fsRead fs0 x) →
      ((op gl hdr true fsT).map (fun r => r.1) =
        (op gl hdr false fs0).map (fun r => r.1)) ∧
      (∀ r, op gl hdr true fsT = some r → ∀ q, q ∉ gl → fsRead r.2 q = fsRead fsT q))
    (hfalse : ∀ gl hdr fs r, op gl hdr false fs = some r → r.2 = fs)
    (chs : List CustomLicenseParam) (goFiles : List String) (hgnd : goFiles.Nodup) :
    ∀ (pending : List CustomLicenseParam),
      (pending.map (fun v => v.name)).Nodup →
      ∀ (fsT fs0 : FileSys),
        (∀ x ∈ goFiles, (bestMatcher chs x).1 ∈ pending.map (fun v => v.name) →
          fsRead fsT x = fsRead fs0 x) →
        ((runCustomLoop op chs goFiles true pending fsT).map (fun r => r.1) =
          (runCustomLoop op chs goFiles false pending fs0).map (fun r => r.1)) ∧
        (∀ r, runCustomLoop op chs goFiles true pending fsT = some r →
          ∀ q, (q ∈ goFiles → (bestMatcher chs q).1 ∉ pending.map (fun v => v.name)) →
            fsRead r.2 q = fsRead fsT q) := by
  intro pending
  induction pending with
  | nil =>
    intro _ fsT fs0 _
    constructor
    · rfl
    · intro r h q _
      rw [runCustomLoop] at h
      injection h with h2
      rw [← h2]
  | cons v rest ih =>
    intro hnames fsT fs0 hreads
    simp only [List.map_cons] at hnames hreads
    obtain ⟨hvn, hrestnames⟩ := List.nodup_cons.mp hnames
    have hgrp_nodup : (groupOf chs goFiles v).Nodup := hgnd.filter _
    have hgrp_reads : ∀ x ∈ groupOf chs goFiles v, fsRead fsT x = fsRead fs0 x := by
      intro x hx
      obtain ⟨hxg, hxa⟩ := mem_groupOf.mp hx
      refine hreads x hxg ?_
      rw [hxa]
      exact List.mem_cons_self _ _
    obtain ⟨hm1, hp1⟩ := hdry (groupOf chs goFiles v) v.header fsT fs0 hgrp_nodup hgrp_reads
    cases hoT : op (groupOf chs goFiles v) v.header true fsT with
    | none =>
      cases ho0 : op (groupOf chs goFiles v) v.header false fs0 with
      | some r0 =>
        rw [hoT, ho0] at hm1
        exact Option.noConfusion hm1
      | none =>
        constructor
        · rw [runCustomLoop, runCustomLoop]
          simp only [hoT, ho0]
        · intro r h q _
          rw [runCustomLoop] at h
          simp only [hoT] at h
          exact Option.noConfusion h
    | some rT =>
      cases ho0 : op (groupOf chs goFiles v) v.header false fs0 with
      | none =>
        rw [hoT, ho0] at hm1
        exact Option.noConfusion hm1
      | some r0 =>
        rcases rT with ⟨mT, fsT1⟩
        rcases r0 with ⟨m0, fs01⟩
        rw [hoT, ho0] at hm1
        simp only [Option.map_some'] at hm1
        injection hm1 with hfst
        have hfs01 : fs01 = fs0 := hfalse _ _ _ _ ho0
        subst hfs01
        have hrest_reads : ∀ x ∈ goFiles,
            (bestMatcher chs x).1 ∈ rest.map (fun v => v.name) →
            fsRead fsT1 x = fsRead fs01 x := by
          intro x hxg hxa
          have hxnotv : x ∉ groupOf chs goFiles v := by
            intro hxv
            obtain ⟨_, hxa2⟩ := mem_groupOf.mp hxv
            rw [hxa2] at hxa
            exact hvn hxa
          have hstep := hp1 (mT, fsT1) hoT x hxnotv
          rw [hstep]
          exact hreads x hxg (List.mem_cons_of_mem _ hxa)
        obtain ⟨hm2, hp2⟩ := ih hrestnames fsT1 fs01 hrest_reads
        cases hrecT : runCustomLoop op chs goFiles true rest fsT1 with
        | none =>
          cases hrec0 : runCustomLoop op chs goFiles false rest fs01 with
          | some r02 =>
            rw [hrecT, hrec0] at hm2
            exact Option.noConfusion hm2
          | none =>
            constructor
            · rw [runCustomLoop, runCustomLoop]
              simp only [hoT, ho0, hrecT, hrec0]
            · intro r h q _
              rw [runCustomLoop] at h
              simp only [hoT, hrecT] at h
              exact Option.noConfusion h
        | some rT2 =>
          cases hrec0 : runCustomLoop op chs goFiles false rest fs01 with
          | none =>
            rw [hrecT, hrec0] at hm2
            exact Option.noConfusion hm2
          | some r02 =>
            rcases rT2 with ⟨m2T, fs2T⟩
            rcases r02 with ⟨m20, fs20⟩
            rw [hrecT, hrec0] at hm2
            simp only [Option.map_some'] at hm2
            injection hm2 with hfst2
            constructor
            · rw [runCustomLoop, runCustomLoop]
              simp only [hoT, ho0, hrecT, hrec0, Option.map_some', Option.some.injEq]
              rw [hfst, hfst2]
            · intro r h q hq
              rw [runCustomLoop] at h
              simp only [hoT, hrecT] at h
              injection h with h2
              rw [← h2]
              show fsRead fs2T q = fsRead fsT q
              have hq2 : q ∈ goFiles → (bestMatcher chs q).1 ∉ rest.map (fun v => v.name) := by
                intro hqg hqa
                exact hq hqg (List.mem_cons_of_mem _ hqa)
              have hstep2 := hp2 (m2T, fs2T) hrecT q hq2
              rw [hstep2]
              have hqnotv : q ∉ groupOf chs goFiles v := by
                intro hqv
                obtain ⟨hqg, hqa⟩ := mem_groupOf.mp hqv
                refine hq hqg ?_
                rw [hqa]
                exact List.mem_cons_self _ _
              exact hp1 (mT, fsT1) hoT q hqnotv

lemma processFiles_false_noWrite
    (op : List String → List Char → Bool → FileSys → Option (List String × FileSys))
    (hfalse : ∀ gl hdr fs r, op gl hdr false fs = some r → r.2 = fs)
    (files : List String) (params : LicenseParams) (fs : FileSys)
    (r : List String × FileSys)
    (h : processFiles files params false op fs = some r) : r.2 = fs := by
  rw [processFiles] at h
  cases hval : validateOk params with
  | false =>
    rw [hval] at h
    simp only [Bool.false_eq_true, if_false] at h
    exact Option.noConfusion h
  | true =>
    rw [hval] at h
    simp only [if_true] at h
    cases hl : runCustomLoop op params.customHeaders
        (files.filter (fun x => isGoFileName x && ! params.exclude x)) false
        params.customHeaders fs with
    | none =>
      rw [hl] at h
      exact Option.noConfusion h
    | some r1 =>
      rcases r1 with ⟨m1, fs1⟩
      simp only [hl] at h
      cases hf : op ((files.filter (fun x => isGoFileName x && ! params.exclude x)).filter
          (fun x => (bestMatcher params.customHeaders x).1 = (""))) params.header false fs1 with
      | none =>
        simp only [hf] at h
        exact Option.noConfusion h
      | some r2 =>
        rcases r2 with ⟨m2, fs2⟩
        simp only [hf] at h
        injection h with h2
        rw [← h2]
        show fs2 = fs
        have h3 : fs2 = fs1 := hfalse _ _ _ _ hf
        have h4 : fs1 = fs := runCustomLoop_false_noWrite op hfalse _ _ _ fs (m1, fs1) hl
        rw [h3, h4]

lemma validateOk_props (params : LicenseParams) (h : validateOk params = true) :
    (∀ v ∈ params.customHeaders, v.name ≠ ("")) ∧
    (params.customHeaders.map (fun v => v.name)).Nodup := by
  rw [validateOk] at h
  simp only [Bool.and_eq_true, List.all_eq_true, decide_eq_true_eq] at h
  exact ⟨fun v hv => h.1.1 v hv, h.1.2⟩

lemma processFiles_dry
    (op : List String → List Char → Bool → FileSys → Option (List String × FileSys))
    (hdry : ∀ (gl : List String) (hdr : List Char) (fsT fs0 : FileSys), gl.Nodup →
      (∀ x ∈ gl, fsRead fsT x = fsRead fs0 x) →
      ((op gl hdr true fsT).map (fun r => r.1) =
        (op gl hdr false fs0).map (fun r => r.1)) ∧
      (∀ r, op gl hdr true fsT = some r → ∀ q, q ∉ gl → fsRead r.2 q = fsRead fsT q))
    (hfalse : ∀ gl hdr fs r, op gl hdr false fs = some r → r.2 = fs)
    (files : List String) (params : LicenseParams) (fs : FileSys)
    (hnd : files.Nodup) :
    (processFiles files params true op fs).map (fun r => r.1) =
      (processFiles files params false op fs).map (fun r => r.1) := by
  rw [processFiles, processFiles]
  cases hval : validateOk params with
  | false => simp only [Bool.false_eq_true, if_false]
  | true =>
    simp only [if_true]
    obtain ⟨hblank, hnames⟩ := validateOk_props params hval
    have hgnd : (files.filter (fun x => isGoFileName x && ! params.exclude x)).Nodup :=
      hnd.filter _
    obtain ⟨hm1, hp1⟩ := runCustomLoop_dry op hdry hfalse params.customHeaders
      (files.filter (fun x => isGoFileName x && ! params.exclude x)) hgnd
      params.customHeaders hnames fs fs (fun x _ _ => rfl)
    cases hlT : runCustomLoop op params.customHeaders
        (files.filter (fun x => isGoFileName x && ! params.exclude x)) true
        params.customHeaders fs with
    | none =>
      cases hl0 : runCustomLoop op params.customHeaders
          (files.filter (fun x => isGoFileName x && ! params.exclude x)) false
          params.customHeaders fs with
      | some r10 =>
        rw [hlT, hl0] at hm1
        exact Option.noConfusion hm1
      | none => simp only [hlT, hl0]
    | some r1T =>
      cases hl0 : runCustomLoop op params.customHeaders
          (files.filter (fun x => isGoFileName x && ! params.exclude x)) false
          params.customHeaders fs with
      | none =>
        rw [hlT, hl0] at hm1
        exact Option.noConfusion hm1
      | some r10 =>
        rcases r1T with ⟨m1T, fsT1⟩
        rcases r10 with ⟨m10, fs01⟩
        rw [hlT, hl0] at hm1
        simp only [Option.map_some'] at hm1
        injection hm1 with hfst1
        have hfs01 : fs01 = fs :=
          runCustomLoop_false_noWrite op hfalse _ _ _ fs (m10, fs01) hl0
        have hund : ((files.filter (fun x => isGoFileName x && ! params.exclude x)).filter
            (fun x => (bestMatcher params.customHeaders x).1 = (""))).Nodup :=
      hgnd.filter _
        have hureads : ∀ x ∈ (files.filter
              (fun x => isGoFileName x && ! params.exclude x)).filter
            (fun x => (bestMatcher params.customHeaders x).1 = ("")),
            fsRead fsT1 x = fsRead fs x := by
          intro x hx
          obtain ⟨hxg, hxb⟩ := List.mem_filter.mp hx
          refine hp1 (m1T, fsT1) hlT x ?_
          intro _ hmem
          obtain ⟨w, hw, hweq⟩ := List.mem_map.mp hmem
          have hxe : (bestMatcher params.customHeaders x).1 = ("") := of_decide_eq_true hxb
          rw [hxe] at hweq
          exact hblank w hw hweq
        obtain ⟨hm2, _⟩ := hdry ((files.filter
              (fun x => isGoFileName x && ! params.exclude x)).filter
            (fun x => (bestMatcher params.customHeaders x).1 = ("")))
          params.header fsT1 fs hund hureads
        cases hfT : op ((files.filter (fun x => isGoFileName x && ! params.exclude x)).filter
            (fun x => (bestMatcher params.customHeaders x).1 = (""))) params.header true fsT1 with
        | none =>
          cases hf0 : op ((files.filter
                (fun x => isGoFileName x && ! params.exclude x)).filter
              (fun x => (bestMatcher params.customHeaders x).1 = (""))) params.header false fs with
          | some r20 =>
            rw [hfT, hf0] at hm2
            exact Option.noConfusion hm2
          | none =>
            rw [hfs01]
            simp only [hlT, hl0, hfT, hf0]
        | some r2T =>
          cases hf0 : op ((files.filter
                (fun x => isGoFileName x && ! params.exclude x)).filter
              (fun x => (bestMatcher params.customHeaders x).1 = (""))) params.header false fs with
          | none =>
            rw [hfT, hf0] at hm2
            exact Option.noConfusion hm2
          | some r20 =>
            rcases r2T with ⟨m2T, fs2T⟩
            rcases r20 with ⟨m20, fs20⟩
            rw [hfT, hf0] at hm2
            simp only [Option.map_some'] at hm2
            injection hm2 with hfst2
            rw [hfs01]
            simp only [hlT, hl0, hfT, hf0, Option.map_some', Option.some.injEq]
            rw [hfst1, hfst2]

/-- Counterexample for C10: on an input list containing the same go file
twice, the non-modifying run reports the file once per occurrence, which is
not the (sorted, one-entry) list of files the modifying run changes. -/
theorem licenseFiles_dryRun_counterexample :
    licenseFiles [("a.go"), ("a.go")] plainParams false fsPlain =
      some ([("a.go"), ("a.go")], fsPlain) ∧
    licenseFiles [("a.go"), ("a.go")] plainParams true fsPlain =
      some ([("a.go")], fsLicensed) ∧
    ¬ ([("a.go"), ("a.go")] : List String) = [("a.go")] := by
  refine ⟨by decide, by decide, by decide⟩

/-- C10 (amended): a non-modifying run writes to no file — the filesystem it
returns is the one it was given — and on a duplicate-free input file list it
returns exactly the list of files the modifying run (would) modify, for both
LicenseFiles and UnlicenseFiles; with duplicate entries the non-modifying run
may list a file once per occurrence. -/
theorem licenseFiles_dryRun (files : List String) (params : LicenseParams)
    (fs : FileSys) (hnd : files.Nodup) :
    (∀ r, licenseFiles files params false fs = some r → r.2 = fs) ∧
    (∀ r, unlicenseFiles files params false fs = some r → r.2 = fs) ∧
    ((licenseFiles files params false fs).map (fun r => r.1) =
      (licenseFiles files params true fs).map (fun r => r.1)) ∧
    ((unlicenseFiles files params false fs).map (fun r => r.1) =
      (unlicenseFiles files params true fs).map (fun r => r.1)) := by
  have hdryA : ∀ (gl : List String) (hdr : List Char) (fsT fs0 : FileSys), gl.Nodup →
      (∀ x ∈ gl, fsRead fsT x = fsRead fs0 x) →
      ((applyLicenseToFiles gl hdr true fsT).map (fun r => r.1) =
        (applyLicenseToFiles gl hdr false fs0).map (fun r => r.1)) ∧
      (∀ r, applyLicenseToFiles gl hdr true fsT = some r →
        ∀ q, q ∉ gl → fsRead r.2 q = fsRead fsT q) :=
    fun gl hdr fsT fs0 h1 h2 => visitFiles_dry (applyChg hdr) (applyUpd hdr) gl fsT fs0 h1 h2
  have hfalseA : ∀ gl hdr fs2 r, applyLicenseToFiles gl hdr false fs2 = some r → r.2 = fs2 :=
    fun gl hdr fs2 r h => visitFiles_false_noWrite (applyChg hdr) (applyUpd hdr) gl fs2 r h
  have hdryR : ∀ (gl : List String) (hdr : List Char) (fsT fs0 : FileSys), gl.Nodup →
      (∀ x ∈ gl, fsRead fsT x = fsRead fs0 x) →
      ((removeLicenseFromFiles gl hdr true fsT).map (fun r => r.1) =
        (removeLicenseFromFiles gl hdr false fs0).map (fun r => r.1)) ∧
      (∀ r, removeLicenseFromFiles gl hdr true fsT = some r →
        ∀ q, q ∉ gl → fsRead r.2 q = fsRead fsT q) :=
    fun gl hdr fsT fs0 h1 h2 => visitFiles_dry (removeChg hdr) (removeUpd hdr) gl fsT fs0 h1 h2
  have hfalseR : ∀ gl hdr fs2 r, removeLicenseFromFiles gl hdr false fs2 = some r → r.2 = fs2 :=
    fun gl hdr fs2 r h => visitFiles_false_noWrite (removeChg hdr) (removeUpd hdr) gl fs2 r h
  refine ⟨?_, ?_, ?_, ?_⟩
  · exact fun r h => processFiles_false_noWrite applyLicenseToFiles hfalseA files params fs r h
  · exact fun r h => processFiles_false_noWrite removeLicenseFromFiles hfalseR files params fs r h
  · exact (processFiles_dry applyLicenseToFiles hdryA hfalseA files params fs hnd).symm
  · exact (processFiles_dry removeLicenseFromFiles hdryR hfalseR files params fs hnd).symm

/-- Witness for C10 (amended): on a concrete duplicate-free input, the
non-modifying run leaves the filesystem alone and reports exactly what the
modifying run changes. -/
theorem licenseFiles_dryRun_witness :
    (([("a.go")] : List String).Nodup) ∧
    (∀ r, licenseFiles [("a.go")] plainParams false fsPlain = some r → r.2 = fsPlain) ∧
    ((licenseFiles [("a.go")] plainParams false fsPlain).map (fun r => r.1) =
      (licenseFiles [("a.go")] plainParams true fsPlain).map (fun r => r.1)) ∧
    (licenseFiles [("a.go")] plainParams true fsPlain).map (fun r => r.1) =
      some [("a.go")] :=
  ⟨by decide,
   (licenseFiles_dryRun [("a.go")] plainParams fsPlain (by decide)).1,
   (licenseFiles_dryRun [("a.go")] plainParams fsPlain (by decide)).2.2.1,
   by decide⟩
